import Mathlib

/-!
Shallow embedding of the SSFM (split-step Fourier method) solver core from
ssfm_functions.py, together with proofs settling the frozen claims about it.

Modelling conventions:
  - numpy float/complex arithmetic is modelled by exact real and complex
    arithmetic (ℝ, ℂ);
  - a numpy array of length N is a function Fin N → ℝ or Fin N → ℂ;
  - scipy fft/ifft are the unnormalised/(1/N)-normalised discrete Fourier
    sums, fftshift/ifftshift the usual rotations by N/2;
  - numpy complex power z ** d (for real d) is the principal-branch complex
    power, which is exactly Mathlib cpow;
  - a Python assert failure or crash is modelled by Option.none, so functions
    whose source can abort return Option;
  - the while-loop of getVariableZsteps is modelled with an explicit fuel
    parameter: none means the fuel did not cover the number of iterations
    the source loop performs;
  - Python str.lower is modelled by pyLower.
-/

namespace NLSE

open Complex Finset Real

noncomputable section

open scoped Classical

/-- Python str.lower restricted to ASCII, as used for the step-mode strings. -/
def pyLower (s : String) : String := ⟨s.data.map Char.toLower⟩

/-- scipy.fftpack.fft: the unnormalised forward DFT,
(fft a) k = Σ_n a n · exp(-2πi·k·n/N). -/
def fft {N : ℕ} (a : Fin N → ℂ) : Fin N → ℂ :=
  fun k => ∑ n : Fin N, a n * Complex.exp (-(2 * (π : ℂ) * I) * ((k.val * n.val : ℕ) : ℂ) / (N : ℂ))

/-- scipy.fftpack.ifft: the (1/N)-normalised inverse DFT,
(ifft a) k = (Σ_n a n · exp(2πi·k·n/N)) / N. -/
def ifft {N : ℕ} (a : Fin N → ℂ) : Fin N → ℂ :=
  fun k => (∑ n : Fin N, a n * Complex.exp ((2 * (π : ℂ) * I) * ((k.val * n.val : ℕ) : ℂ) / (N : ℂ))) / (N : ℂ)

/-- The index N/2 used by fftshift/ifftshift (numpy rolls by n//2). -/
def shiftIdx (N : ℕ) [NeZero N] : Fin N :=
  ⟨N / 2, Nat.div_lt_self (NeZero.pos N) one_lt_two⟩

/-- scipy.fftpack.fftshift: roll by N/2, out[k] = x[(k - N/2) mod N]. -/
def fftshift {N : ℕ} [NeZero N] {α : Type} (x : Fin N → α) : Fin N → α :=
  fun k => x (k - shiftIdx N)

/-- scipy.fftpack.ifftshift: roll by -(N/2), out[k] = x[(k + N/2) mod N]. -/
def ifftshift {N : ℕ} [NeZero N] {α : Type} (x : Fin N → α) : Fin N → α :=
  fun k => x (k + shiftIdx N)

/-- scipy.fftpack.fftfreq: sample k is k/(N·d) for k < ⌈N/2⌉ and (k-N)/(N·d) above. -/
def fftfreq (N : ℕ) (d : ℝ) : Fin N → ℝ :=
  fun k => (if k.val < (N + 1) / 2 then (k.val : ℝ) else (k.val : ℝ) - N) / (N * d)

/-- getFreqRangeFromTime from the source: fftshift(fftfreq(len(t), d=t[1]-t[0])). -/
def getFreqRangeFromTime {N : ℕ} [NeZero N] (time_s : Fin N → ℝ) : Fin N → ℝ :=
  fftshift (fftfreq N (time_s 1 - time_s 0))

/-- getTimeFromFrequency from the source: fftshift(fftfreq(len(f), d=f[1]-f[0])). -/
def getTimeFromFrequency {N : ℕ} [NeZero N] (frequency_Hz : Fin N → ℝ) : Fin N → ℝ :=
  fftshift (fftfreq N (frequency_Hz 1 - frequency_Hz 0))

/-- getPower from the source: |amplitude|² (pointwise). -/
def getPower (z : ℂ) : ℝ := Complex.abs z ^ 2

/-- np.trapz(y, x): trapezoidal quadrature of y against the axis x. -/
def trapz {N : ℕ} (x y : Fin N → ℝ) : ℝ :=
  ∑ i : Fin (N - 1),
    (y ⟨i.val, by omega⟩ + y ⟨i.val + 1, by omega⟩) / 2 *
      (x ⟨i.val + 1, by omega⟩ - x ⟨i.val, by omega⟩)

/-- getEnergy from the source: trapezoidal integral of the power over the axis. -/
def getEnergy {N : ℕ} (time_or_freq : Fin N → ℝ) (a : Fin N → ℂ) : ℝ :=
  trapz time_or_freq (fun n => getPower (a n))

/-- getSpectrumFromPulse from the source: spectrum = fftshift(fft(pulse))·dt with an
energy-conservation assert (relative error below 1e-7); assert failure is none. -/
def getSpectrumFromPulse {N : ℕ} [NeZero N] (time_s : Fin N → ℝ) (pulse_amplitude : Fin N → ℂ) :
    Option (Fin N → ℂ) :=
  let pulseEnergy := getEnergy time_s pulse_amplitude
  let f := getFreqRangeFromTime time_s
  let dt := time_s 1 - time_s 0
  let spectrum_amplitude := fun k => fftshift (fft pulse_amplitude) k * (dt : ℂ)
  let spectrumEnergy := getEnergy f spectrum_amplitude
  if |pulseEnergy / spectrumEnergy - 1| < 1e-7 then some spectrum_amplitude else none

/-- getPulseFromSpectrum from the source: pulse = ifft(ifftshift(spectrum))/dt with the
same energy-conservation assert; assert failure is none. -/
def getPulseFromSpectrum {N : ℕ} [NeZero N] (frequency_Hz : Fin N → ℝ) (spectrum_amplitude : Fin N → ℂ) :
    Option (Fin N → ℂ) :=
  let spectrumEnergy := getEnergy frequency_Hz spectrum_amplitude
  let time := getTimeFromFrequency frequency_Hz
  let dt := time 1 - time 0
  let pulse := fun k => ifft (ifftshift spectrum_amplitude) k / (dt : ℂ)
  let pulseEnergy := getEnergy time pulse
  if |pulseEnergy / spectrumEnergy - 1| < 1e-7 then some pulse else none

/-- np.linspace(a, b, n) as a function on Fin n. -/
def linspaceF (a b : ℝ) (n : ℕ) : Fin n → ℝ :=
  fun k => a + (k.val : ℝ) * (b - a) / ((n : ℝ) - 1)

/-- np.linspace(a, b, n) as a list. -/
def linspaceList (a b : ℝ) (n : ℕ) : List ℝ :=
  (List.range n).map fun k : ℕ => a + (k : ℝ) * (b - a) / ((n : ℝ) - 1)

/-- np.mean of an array. -/
def meanF {N : ℕ} (x : Fin N → ℝ) : ℝ := (∑ k, x k) / N

/-- The timeFreq_class data: sample count, step, time axis, frequency axis. -/
structure TimeFreqC (N : ℕ) where
  number_of_points : ℕ
  time_step : ℝ
  t : Fin N → ℝ
  f : Fin N → ℝ
  freq_step : ℝ

/-- timeFreq_class.__init__ from the source: t = linspace(0, N·dt, N) recentred to
zero mean, f = getFreqRangeFromTime(t). -/
def timeFreqMk (N : ℕ) [NeZero N] (dt : ℝ) : TimeFreqC N :=
  let traw := linspaceF 0 (N * dt) N
  let t := fun k => traw k - meanF traw
  let f := getFreqRangeFromTime t
  { number_of_points := N
    time_step := dt
    t := t
    f := f
    freq_step := f 1 - f 0 }

/-- The fiber_class data. -/
structure FiberC where
  Length : ℝ
  gamma : ℝ
  beta2 : ℝ
  alpha_dB_per_m : ℝ
  alpha_Np_per_m : ℝ
  total_loss_dB : ℝ

/-- fiber_class.__init__ from the source: derives alpha_Np = alpha_dB·ln(10)/10. -/
def mkFiber (L gamma beta2 alpha_dB_per_m : ℝ) : FiberC :=
  { Length := L
    gamma := gamma
    beta2 := beta2
    alpha_dB_per_m := alpha_dB_per_m
    alpha_Np_per_m := alpha_dB_per_m * Real.log 10 / 10
    total_loss_dB := alpha_dB_per_m * L }

/-- The input_signal_class attribute record (the amplitude and spectrum fields are
carried as data; the class allows arbitrary values there via the custom path). -/
structure InputSignalC (N : ℕ) where
  Amax : ℝ
  Pmax : ℝ
  duration : ℝ
  offset : ℝ
  chirp : ℝ
  carrier_freq_Hz : ℝ
  pulseType : String
  order : ℕ
  noiseAmplitude : ℝ
  timeFreq : TimeFreqC N
  amplitude : Fin N → ℂ
  spectrum : Fin N → ℂ

/-- The stepConfig triple (stepMode, stepApproach, stepSafetyFactor); the approach is
either a string or an integer step count, as in the source. -/
structure StepCfg where
  mode : String
  approach : String ⊕ ℕ
  safety : ℝ

/-- zstep_NL from the source, including the single-step fast path for gamma = 0 or
beta2 = 0 and the bare else branch returning 1.0. -/
def zstep_NL {N : ℕ} (z_m : ℝ) (fiber : FiberC) (input_signal : InputSignalC N)
    (stepmode : String) (stepSafetyFactor : ℝ) : ℝ :=
  if fiber.gamma = 0 then fiber.Length
  else if fiber.beta2 = 0 then fiber.Length
  else if pyLower stepmode = "cautious" then
    |fiber.beta2| * π / (fiber.gamma * input_signal.Pmax * input_signal.duration) ^ 2 *
      Real.exp (2 * fiber.alpha_Np_per_m * z_m) / stepSafetyFactor
  else if pyLower stepmode = "approx" then
    |fiber.beta2| * π / (fiber.gamma * input_signal.Pmax) ^ 2 /
      (input_signal.duration * input_signal.timeFreq.time_step) *
      Real.exp (2 * fiber.alpha_Np_per_m * z_m) / stepSafetyFactor
  else 1

/-- np.arange(0, stop, step) for positive step: the ⌈stop/step⌉ values k·step. -/
def arangeList (stop step : ℝ) : List ℝ :=
  (List.range ⌈stop / step⌉₊).map fun k : ℕ => (k : ℝ) * step

/-- np.diff of a list. -/
def diffList (l : List ℝ) : List ℝ := l.zipWith (fun a b => b - a) l.tail

/-- The while-loop of getVariableZsteps, with fuel; returns the final z together with
the accumulated z and dz arrays, or none if the fuel ran out. -/
def varLoop {N : ℕ} (fiber : FiberC) (sig : InputSignalC N) (stepmode : String)
    (safety : ℝ) (fuel : ℕ) (z_so_far : ℝ) (z_array dz_array : List ℝ) :
    Option (ℝ × List ℝ × List ℝ) :=
  let dz := zstep_NL z_so_far fiber sig stepmode safety
  if z_so_far + dz ≤ fiber.Length then
    match fuel with
    | 0 => none
    | fuel' + 1 =>
        varLoop fiber sig stepmode safety fuel' (z_so_far + dz)
          (z_array ++ [z_so_far + dz]) (dz_array ++ [dz])
  else some (z_so_far, z_array, dz_array)

/-- getVariableZsteps from the source: run the loop from z = 0 with z_array = [0],
then append the fiber length and the residual step. -/
def getVariableZsteps {N : ℕ} (fuel : ℕ) (fiber : FiberC) (sig : InputSignalC N)
    (stepmode : String) (safety : ℝ) : Option (List ℝ × List ℝ) :=
  (varLoop fiber sig stepmode safety fuel 0 [0] []).map fun r =>
    (r.2.1 ++ [fiber.Length], r.2.2 ++ [fiber.Length - r.1])

/-- getZsteps from the source (the plotting and directory side effects are dropped):
fixed mode with a string approach lays multiples of zstep_NL(0) and appends L,
fixed mode with an integer approach is the uniform schedule, anything else is
variable mode. With an integer approach in variable mode the integer is passed to
zstep_NL as the stepmode: when gamma = 0 or beta2 = 0 every zstep_NL call returns
Length from the fast path before the mode is inspected, so the loop behaves exactly
as with any mode string (the placeholder "" below is never consulted); only when
gamma and beta2 are both nonzero does the first call reach stepmode.lower() on an
int and crash (AttributeError), modelled as none. -/
def getZsteps {N : ℕ} (fiber : FiberC) (input_signal : InputSignalC N) (cfg : StepCfg)
    (fuel : ℕ) : Option (List ℝ × List ℝ) :=
  if pyLower cfg.mode = "fixed" then
    match cfg.approach with
    | Sum.inl app =>
        let dz := zstep_NL 0 fiber input_signal app cfg.safety
        let zl := arangeList fiber.Length dz
        match zl.getLast? with
        | none => none
        | some zlast =>
            let z_array := if zlast = fiber.Length then zl else zl ++ [fiber.Length]
            some (z_array, diffList z_array)
    | Sum.inr M =>
        let z_array := linspaceList 0 fiber.Length (M + 1)
        let dz1 := z_array.getD 1 0 - z_array.getD 0 0
        some (z_array, List.replicate M dz1)
  else
    match cfg.approach with
    | Sum.inl app => getVariableZsteps fuel fiber input_signal app cfg.safety
    | Sum.inr _ =>
        if fiber.gamma = 0 ∨ fiber.beta2 = 0 then
          getVariableZsteps fuel fiber input_signal ("") cfg.safety
        else none

/-- The precomputed per-unit-length factor of the SSFM loop, exactly as in the
source: disp_and_loss = exp(i·β₂/2·(2π f)² − α_Np/2), with no Δz inside. -/
def dispAndLoss {N : ℕ} (fiber : FiberC) (tf : TimeFreqC N) : Fin N → ℂ :=
  fun k => Complex.exp (I * (fiber.beta2 : ℂ) / 2 * (((2 * π * tf.f k : ℝ) : ℂ)) ^ 2 -
    (fiber.alpha_Np_per_m : ℂ) / 2)

/-- Modelled from the spec (for comparison with the code): the per-step spectral
factor the spec prescribes, exp(D(f)·Δz) with D(f) = i·β₂/2·(2πf)² − α_Np/2. -/
def specLinearFactor (fiber : FiberC) (freq dz : ℝ) : ℂ :=
  Complex.exp ((I * (fiber.beta2 : ℂ) / 2 * (((2 * π * freq : ℝ) : ℂ)) ^ 2 -
    (fiber.alpha_Np_per_m : ℂ) / 2) * (dz : ℂ))

/-- np.max(getPower(pulse)): the peak power of a field. -/
def maxPower {N : ℕ} [NeZero N] (p : Fin N → ℂ) : ℝ :=
  Finset.univ.sup' ⟨⟨0, NeZero.pos N⟩, Finset.mem_univ _⟩ fun n => getPower (p n)

/-- One iteration of the SSFM loop body: nonlinear kick in time, forward transform,
multiplication by disp_and_loss ** dz (numpy complex power = principal-branch cpow),
inverse transform. Returns the new pulse and the stored spectrum. -/
def ssfmStep {N : ℕ} [NeZero N] (tf : TimeFreqC N) (fiber : FiberC) (dz : ℝ)
    (pulse : Fin N → ℂ) : Option ((Fin N → ℂ) × (Fin N → ℂ)) :=
  let pulse1 := fun n => pulse n * Complex.exp (I * (fiber.gamma : ℂ) * ((getPower (pulse n) : ℝ) : ℂ) * (dz : ℂ))
  (getSpectrumFromPulse tf.t pulse1).bind fun spec0 =>
    let spec1 := fun k => spec0 k * (dispAndLoss fiber tf k) ^ ((dz : ℝ) : ℂ)
    (getPulseFromSpectrum tf.f spec1).map fun pulse2 => (pulse2, spec1)

/-- Folding the SSFM loop body over the step list, accumulating the pulse and
spectrum matrices row by row (the source preallocates and fills rows 1..M). -/
def runSteps {N : ℕ} [NeZero N] (tf : TimeFreqC N) (fiber : FiberC) :
    List ℝ → (Fin N → ℂ) → List (Fin N → ℂ) → List (Fin N → ℂ) →
    Option ((Fin N → ℂ) × List (Fin N → ℂ) × List (Fin N → ℂ))
  | [], p, prows, srows => some (p, prows, srows)
  | dz :: rest, p, prows, srows =>
      (ssfmStep tf fiber dz p).bind fun ps =>
        runSteps tf fiber rest ps.1 (prows ++ [ps.1]) (srows ++ [ps.2])

/-- The ssfm_result_class data for one fiber: schedule and the two matrices
(stored as lists of rows; row 0 is set from the input signal on construction). -/
structure SSFMResultC (N : ℕ) where
  zinfo : List ℝ × List ℝ
  pulseRows : List (Fin N → ℂ)
  spectrumRows : List (Fin N → ℂ)

/-- The in-place update the SSFM driver performs on current_input_signal after each
fiber: amplitude := final pulse, Pmax := its peak power; nothing else changes. -/
def updateSignal {N : ℕ} [NeZero N] (sig : InputSignalC N) (pulse : Fin N → ℂ) :
    InputSignalC N :=
  { sig with amplitude := pulse, Pmax := maxPower pulse }

/-- One fiber of the SSFM driver loop: compute the schedule from the current signal,
seed row 0 of both matrices from the current amplitude and spectrum attributes, run
the steps, then update the signal object. -/
def ssfmRunFiber {N : ℕ} [NeZero N] (fuel : ℕ) (fiber : FiberC) (cfg : StepCfg)
    (sig : InputSignalC N) : Option (SSFMResultC N × InputSignalC N) :=
  (getZsteps fiber sig cfg fuel).bind fun zinfo =>
    (runSteps sig.timeFreq fiber zinfo.2 sig.amplitude [sig.amplitude] [sig.spectrum]).map
      fun r => ({ zinfo := zinfo, pulseRows := r.2.1, spectrumRows := r.2.2 },
        updateSignal sig r.1)

/-- The SSFM driver: fold over the fiber list, threading the (mutated) signal state;
returns the result records and the final state of the caller's signal object. -/
def SSFM {N : ℕ} [NeZero N] (fuel : ℕ) (fiber_list : List FiberC) (cfg : StepCfg)
    (sig : InputSignalC N) : Option (List (SSFMResultC N) × InputSignalC N) :=
  match fiber_list with
  | [] => some ([], sig)
  | fb :: rest =>
      (ssfmRunFiber fuel fb cfg sig).bind fun r =>
        (SSFM fuel rest cfg r.2).map fun q => (r.1 :: q.1, q.2)

/-! Concrete objects used as witnesses and counterexamples. -/

/-- A 4-point grid with dt = 3/4, whose recentred time axis has spacing exactly 1. -/
def tf4 : TimeFreqC 4 := timeFreqMk 4 (3 / 4)

/-- A concrete field on the 4-point grid whose transform passes the energy check
with exactly zero error. -/
def aF : Fin 4 → ℂ := ![1, 1, -1, 1]

/-- The raw DFT of aF. -/
def sPre : Fin 4 → ℂ := ![2, 2, -2, 2]

/-- The spectrum of aF on tf4: fftshift of its DFT times dt = 1. -/
def sF : Fin 4 → ℂ := ![-2, 2, 2, 2]

/-- The field aF scaled by one half (output of one pure-attenuation step). -/
def aHalf : Fin 4 → ℂ := fun k => aF k / 2

/-- The spectrum sF scaled by one half. -/
def sHalf : Fin 4 → ℂ := fun k => sF k / 2

/-- The field aF scaled by one quarter (after two pure-attenuation fibers). -/
def aQuarter : Fin 4 → ℂ := fun k => aF k / 4

/-- The spectrum sF scaled by one quarter. -/
def sQuarter : Fin 4 → ℂ := fun k => sF k / 4

/-- A concrete input signal on tf4 carrying the field aF and its spectrum sF. -/
def sigBase : InputSignalC 4 :=
  { Amax := 1
    Pmax := 1
    duration := 1
    offset := 0
    chirp := 0
    carrier_freq_Hz := 0
    pulseType := "custom"
    order := 1
    noiseAmplitude := 0
    timeFreq := tf4
    amplitude := aF
    spectrum := sF }

/-- The same signal with the duration attribute set to 2 instead of 1. -/
def sigTau2 : InputSignalC 4 := { sigBase with duration := 2 }

/-- An identity fiber: gamma = 0, beta2 = 0, alpha = 0, length 1. -/
def fiberI : FiberC := mkFiber 1 0 0 0

/-- A pure-attenuation fiber whose amplitude factor over its length is 1/2:
alpha_Np = 2·ln 2 (i.e. alpha_dB = 20·ln 2/ln 10), gamma = beta2 = 0, length 1. -/
def fiberA : FiberC := mkFiber 1 0 0 (20 * Real.log 2 / Real.log 10)

/-- A Kerr fiber with gamma = 1, beta2 = 1/π, no loss, length 1 (its cautious step
at unit power and unit duration is exactly 1/duration²). -/
def fiberK : FiberC := mkFiber 1 1 (1 / π) 0

/-- A dispersion-only fiber (gamma = 0) used for the schedule counterexamples. -/
def fiberV : FiberC := mkFiber 1 0 1 0

/-- A Kerr fiber of length 7/2 whose cautious variable schedule has 4 steps. -/
def fiberC9 : FiberC := mkFiber (7 / 2) 1 (1 / π) 0

/-- A Kerr fiber used for the unknown-step-mode counterexample. -/
def fiberC8 : FiberC := mkFiber 5 1 1 0

/-- The grid for the branch-cut counterexample: dt = 3/16, so the time spacing is
1/4 and the top frequency sample is exactly 1 Hz. -/
def tfC1 : TimeFreqC 4 := timeFreqMk 4 (3 / 16)

/-- The fiber for the branch-cut counterexample: beta2 = 2/π², no loss, so the
per-unit-length linear phase at 1 Hz is exactly 4 radians, beyond π. -/
def fiberC1 : FiberC := mkFiber 1 1 (2 / π ^ 2) 0

/-- The two-point grid exposing the time-axis spacing bug. -/
def tf2 : TimeFreqC 2 := timeFreqMk 2 1

/-- Fixed mode with the cautious approach and safety factor 1. -/
def cfgFC : StepCfg := { mode := "fixed", approach := Sum.inl ("cautious"), safety := 1 }

/-- Variable mode with the cautious approach and safety factor 1. -/
def cfgVar : StepCfg := { mode := "variable", approach := Sum.inl ("cautious"), safety := 1 }

/-- Fixed mode with the integer approach M = 2. -/
def cfgF2 : StepCfg := { mode := "fixed", approach := Sum.inr 2, safety := 1 }

/-! ## General lemmas about the transform layer -/

theorem ifftshift_fftshift {N : ℕ} [NeZero N] {α : Type} (x : Fin N → α) :
    ifftshift (fftshift x) = x := by
  funext k
  simp [ifftshift, fftshift, add_sub_cancel_right]

theorem sub_shiftIdx_val {N : ℕ} [NeZero N] (k : Fin N) :
    (k - shiftIdx N).val = ((N - N / 2) + k.val) % N := by
  rw [Fin.sub_def]
  simp [shiftIdx]

theorem fftshift_fftfreq {N : ℕ} [NeZero N] (d : ℝ) (k : Fin N) :
    fftshift (fftfreq N d) k = ((k.val : ℝ) - (N / 2 : ℕ)) / (N * d) := by
  have hk := k.isLt
  have hval := sub_shiftIdx_val k
  simp only [fftshift, fftfreq]
  rcases le_or_lt (N / 2) k.val with h | h
  · have e1 : (N - N / 2) + k.val = (k.val - N / 2) + N := by omega
    rw [e1, Nat.add_mod_right, Nat.mod_eq_of_lt (by omega)] at hval
    rw [hval, if_pos (by omega)]
    congr 1
    push_cast [Nat.cast_sub h]
    ring
  · rw [Nat.mod_eq_of_lt (by omega)] at hval
    rw [hval, if_neg (by omega)]
    congr 1
    push_cast [Nat.cast_sub (Nat.div_le_self N 2)]
    ring

theorem sumRoots {N : ℕ} [NeZero N] (m : ℤ) :
    ∑ k : Fin N, Complex.exp ((2 * (π : ℂ) * I) * (k.val : ℂ) * (m : ℂ) / (N : ℂ)) =
      if (N : ℤ) ∣ m then (N : ℂ) else 0 := by
  have hNne : N ≠ 0 := NeZero.ne N
  have hprim := Complex.isPrimitiveRoot_exp N hNne
  set ζ : ℂ := Complex.exp (2 * (π : ℂ) * I / N) with hζ
  have hterm : ∀ k : Fin N,
      Complex.exp ((2 * (π : ℂ) * I) * (k.val : ℂ) * (m : ℂ) / (N : ℂ)) = (ζ ^ m) ^ (k.val : ℕ) := by
    intro k
    rw [hζ, ← Complex.exp_int_mul, ← Complex.exp_nat_mul]
    congr 1
    ring
  simp only [hterm]
  rw [Fin.sum_univ_eq_sum_range (fun i => (ζ ^ m) ^ i) N]
  by_cases hdvd : (N : ℤ) ∣ m
  · have hw : ζ ^ m = 1 := (hprim.zpow_eq_one_iff_dvd m).mpr hdvd
    simp [hw, if_pos hdvd]
  · have hw : ζ ^ m ≠ 1 := fun h1 => hdvd ((hprim.zpow_eq_one_iff_dvd m).mp h1)
    rw [geom_sum_eq hw]
    have hwN : (ζ ^ m) ^ N = 1 := by
      rw [← zpow_natCast (ζ ^ m) N, ← zpow_mul, mul_comm m (N : ℤ), zpow_mul, zpow_natCast,
        hprim.pow_eq_one, one_zpow]
    rw [hwN]
    simp [if_neg hdvd]

theorem ifft_fft {N : ℕ} [NeZero N] (a : Fin N → ℂ) : ifft (fft a) = a := by
  have hNne : N ≠ 0 := NeZero.ne N
  have hNC : (N : ℂ) ≠ 0 := Nat.cast_ne_zero.mpr hNne
  funext j
  simp only [ifft, fft]
  rw [div_eq_iff hNC]
  calc
    ∑ k : Fin N, (∑ n : Fin N, a n *
          Complex.exp (-(2 * (π : ℂ) * I) * ((k.val * n.val : ℕ) : ℂ) / (N : ℂ))) *
        Complex.exp ((2 * (π : ℂ) * I) * ((j.val * k.val : ℕ) : ℂ) / (N : ℂ))
      = ∑ n : Fin N, ∑ k : Fin N, a n *
          Complex.exp ((2 * (π : ℂ) * I) * (k.val : ℂ) *
            (Int.cast ((j.val : ℤ) - (n.val : ℤ)) : ℂ) / (N : ℂ)) := by
        rw [Finset.sum_comm]
        refine Finset.sum_congr rfl fun k _ => ?_
        rw [Finset.sum_mul]
        refine Finset.sum_congr rfl fun n _ => ?_
        rw [mul_assoc, ← Complex.exp_add]
        congr 2
        push_cast
        ring
    _ = ∑ n : Fin N, a n *
          (if (N : ℤ) ∣ ((j.val : ℤ) - (n.val : ℤ)) then (N : ℂ) else 0) := by
        refine Finset.sum_congr rfl fun n _ => ?_
        rw [← Finset.mul_sum, sumRoots (((j.val : ℤ) - (n.val : ℤ)))]
    _ = a j * (N : ℂ) := by
        rw [Finset.sum_eq_single j]
        · simp
        · intro n _ hne
          have hndvd : ¬ (N : ℤ) ∣ ((j.val : ℤ) - (n.val : ℤ)) := by
            intro hdvd
            have h0 : ((j.val : ℤ) - (n.val : ℤ)) = 0 := by
              refine Int.eq_zero_of_dvd_of_natAbs_lt_natAbs hdvd ?_
              have h1 := j.isLt
              have h2 := n.isLt
              omega
            have : j.val = n.val := by omega
            exact hne.symm (Fin.ext this)
          rw [if_neg hndvd, mul_zero]
        · intro h
          exact absurd (Finset.mem_univ j) h

theorem fin_val_one {N : ℕ} [NeZero N] (h : 2 ≤ N) : ((1 : Fin N) : ℕ) = 1 := by
  have h1 : (1 : Fin N).val = 1 % N := rfl
  rw [h1, Nat.mod_eq_of_lt (by omega)]

theorem fin_val_zero {N : ℕ} [NeZero N] : ((0 : Fin N) : ℕ) = 0 := rfl

theorem freqRange_spacing {N : ℕ} [NeZero N] (h : 2 ≤ N) (t : Fin N → ℝ) :
    getFreqRangeFromTime t 1 - getFreqRangeFromTime t 0 = 1 / (N * (t 1 - t 0)) := by
  rw [getFreqRangeFromTime, fftshift_fftfreq, fftshift_fftfreq, fin_val_one h, fin_val_zero]
  rw [div_sub_div_same]
  norm_num

theorem getSpectrumFromPulse_some {N : ℕ} [NeZero N] {t : Fin N → ℝ} {a s : Fin N → ℂ}
    (h : getSpectrumFromPulse t a = some s) :
    s = fun k => fftshift (fft a) k * ((t 1 - t 0 : ℝ) : ℂ) := by
  simp only [getSpectrumFromPulse] at h
  split at h
  · exact (Option.some_injective _ h).symm
  · exact absurd h (by simp)

theorem getPulseFromSpectrum_some {N : ℕ} [NeZero N] {f : Fin N → ℝ} {s p : Fin N → ℂ}
    (h : getPulseFromSpectrum f s = some p) :
    p = fun k => ifft (ifftshift s) k /
      ((getTimeFromFrequency f 1 - getTimeFromFrequency f 0 : ℝ) : ℂ) := by
  simp only [getPulseFromSpectrum] at h
  split at h
  · exact (Option.some_injective _ h).symm
  · exact absurd h (by simp)

theorem shifted_fftfreq_spacing {N : ℕ} [NeZero N] (h : 2 ≤ N) (d : ℝ) :
    fftshift (fftfreq N d) 1 - fftshift (fftfreq N d) 0 = 1 / (N * d) := by
  rw [fftshift_fftfreq, fftshift_fftfreq, fin_val_one h, fin_val_zero]
  rw [div_sub_div_same]
  norm_num

theorem ifft_scale {N : ℕ} (x : Fin N → ℂ) (c : ℂ) :
    ifft (fun k => x k * c) = fun k => ifft x k * c := by
  funext k
  simp only [ifft]
  rw [div_mul_eq_mul_div]
  congr 1
  rw [Finset.sum_mul]
  exact Finset.sum_congr rfl fun n _ => by ring

/-- C7: for every field a on a grid with at least two samples and nonzero time spacing,
whenever the forward transform (time to spectrum) and then the inverse transform
(spectrum to time, on the frequency axis derived from the same time axis) both pass
their energy checks, the resulting pulse equals a exactly: the dt scaling of the
forward direction cancels against the dt division of the inverse direction and
ifftshift inverts fftshift. -/
theorem C7_roundtrip {N : ℕ} [NeZero N] (hN : 2 ≤ N) (t : Fin N → ℝ)
    (hdt : t 1 - t 0 ≠ 0) (a s p : Fin N → ℂ)
    (hfwd : getSpectrumFromPulse t a = some s)
    (hinv : getPulseFromSpectrum (getFreqRangeFromTime t) s = some p) : p = a := by
  have hNR : (N : ℝ) ≠ 0 := Nat.cast_ne_zero.mpr (NeZero.ne N)
  have hs := getSpectrumFromPulse_some hfwd
  have hp := getPulseFromSpectrum_some hinv
  have hfspace : getFreqRangeFromTime t 1 - getFreqRangeFromTime t 0 = 1 / (N * (t 1 - t 0)) :=
    freqRange_spacing hN t
  have htime : getTimeFromFrequency (getFreqRangeFromTime t) 1 -
      getTimeFromFrequency (getFreqRangeFromTime t) 0 = t 1 - t 0 := by
    rw [getTimeFromFrequency, hfspace, shifted_fftfreq_spacing hN]
    rw [show (N : ℝ) * (1 / (N * (t 1 - t 0))) = 1 / (t 1 - t 0) by field_simp]
    rw [one_div_one_div]
  rw [hp, htime, hs]
  have hshift : ifftshift (fun k => fftshift (fft a) k * ((t 1 - t 0 : ℝ) : ℂ)) =
      fun k => ifftshift (fftshift (fft a)) k * ((t 1 - t 0 : ℝ) : ℂ) := rfl
  rw [hshift, ifftshift_fftshift, ifft_scale, ifft_fft]
  funext k
  rw [mul_div_assoc, div_self (Complex.ofReal_ne_zero.mpr hdt), mul_one]

theorem exp_neg_quarter : Complex.exp (-(2 * (π : ℂ) * I) / 4) = -I := by
  have h : -(2 * (π : ℂ) * I) / 4 = -((((π / 2 : ℝ) : ℂ)) * I) := by
    push_cast
    ring
  rw [h, Complex.exp_neg, Complex.exp_mul_I]
  rw [← Complex.ofReal_cos, ← Complex.ofReal_sin, Real.cos_pi_div_two, Real.sin_pi_div_two]
  simp [Complex.inv_I]

theorem exp_pos_quarter : Complex.exp ((2 * (π : ℂ) * I) / 4) = I := by
  have h : (2 * (π : ℂ) * I) / 4 = (((π / 2 : ℝ) : ℂ)) * I := by
    push_cast
    ring
  rw [h, Complex.exp_mul_I]
  rw [← Complex.ofReal_cos, ← Complex.ofReal_sin, Real.cos_pi_div_two, Real.sin_pi_div_two]
  simp

theorem expQn4 (m : ℕ) :
    Complex.exp (-(2 * (π : ℂ) * I) * ((m : ℕ) : ℂ) / ((4 : ℕ) : ℂ)) = (-I) ^ m := by
  have h : -(2 * (π : ℂ) * I) * ((m : ℕ) : ℂ) / ((4 : ℕ) : ℂ) =
      (m : ℂ) * (-(2 * (π : ℂ) * I) / 4) := by
    push_cast
    ring
  rw [h, Complex.exp_nat_mul, exp_neg_quarter]

theorem expQp4 (m : ℕ) :
    Complex.exp ((2 * (π : ℂ) * I) * ((m : ℕ) : ℂ) / ((4 : ℕ) : ℂ)) = I ^ m := by
  have h : (2 * (π : ℂ) * I) * ((m : ℕ) : ℂ) / ((4 : ℕ) : ℂ) =
      (m : ℂ) * ((2 * (π : ℂ) * I) / 4) := by
    push_cast
    ring
  rw [h, Complex.exp_nat_mul, exp_pos_quarter]

theorem negI_sq : (-I) ^ 2 = (-1 : ℂ) := by
  rw [neg_pow, Complex.I_sq]
  norm_num

theorem fft_aF : fft aF = sPre := by
  funext k
  simp only [fft, Fin.sum_univ_four, expQn4]
  fin_cases k <;>
    norm_num [aF, sPre, (show ((2 : Fin 4) : ℕ) = 2 from rfl), (show ((3 : Fin 4) : ℕ) = 3 from rfl),
      pow_succ, Complex.I_sq] <;>
    ring

theorem ifft_sPre : ifft sPre = aF := by
  funext k
  simp only [ifft, Fin.sum_univ_four, expQp4]
  fin_cases k <;>
    norm_num [aF, sPre, (show ((2 : Fin 4) : ℕ) = 2 from rfl), (show ((3 : Fin 4) : ℕ) = 3 from rfl),
      pow_succ, Complex.I_sq] <;>
    ring_nf

theorem fftshift4 {α : Type} (x : Fin 4 → α) : fftshift x = ![x 2, x 3, x 0, x 1] := by
  funext k
  fin_cases k <;> simp only [fftshift] <;> rfl

theorem ifftshift4 {α : Type} (x : Fin 4 → α) : ifftshift x = ![x 2, x 3, x 0, x 1] := by
  funext k
  fin_cases k <;> simp only [ifftshift] <;> rfl

theorem tf4_t : tf4.t = ![-(3 : ℝ)/2, -1/2, 1/2, 3/2] := by
  funext k
  show linspaceF 0 ((4 : ℕ) * (3/4)) 4 k - meanF (linspaceF 0 ((4 : ℕ) * (3/4)) 4) = _
  fin_cases k <;>
    norm_num [linspaceF, meanF, Fin.sum_univ_four,
      (show ((2 : Fin 4) : ℕ) = 2 from rfl), (show ((3 : Fin 4) : ℕ) = 3 from rfl)]

theorem tf4_dt : tf4.t 1 - tf4.t 0 = 1 := by
  rw [tf4_t]
  norm_num

theorem tf4_f_eq : tf4.f = getFreqRangeFromTime tf4.t := rfl

theorem tf4_f : tf4.f = ![-(1 : ℝ)/2, -1/4, 0, 1/4] := by
  funext k
  rw [tf4_f_eq, getFreqRangeFromTime, tf4_dt, fftshift_fftfreq]
  fin_cases k <;>
    norm_num [(show ((2 : Fin 4) : ℕ) = 2 from rfl), (show ((3 : Fin 4) : ℕ) = 3 from rfl)]

theorem trapz4 (x y : Fin 4 → ℝ) :
    trapz x y = (y 0 + y 1) / 2 * (x 1 - x 0) + (y 1 + y 2) / 2 * (x 2 - x 1) +
      (y 2 + y 3) / 2 * (x 3 - x 2) := by
  show (∑ i : Fin 3, _) = _
  rw [Fin.sum_univ_three]
  norm_num [(show (⟨0, by omega⟩ : Fin 4) = 0 from rfl), (show (⟨1, by omega⟩ : Fin 4) = 1 from rfl),
    (show (⟨2, by omega⟩ : Fin 4) = 2 from rfl), (show (⟨3, by omega⟩ : Fin 4) = 3 from rfl)]

theorem getPower_eq_normSq (z : ℂ) : getPower z = Complex.normSq z := Complex.sq_abs z

theorem energy_t_aF : getEnergy tf4.t aF = 3 := by
  rw [getEnergy, trapz4, tf4_t]
  norm_num [aF, getPower_eq_normSq, Complex.normSq_apply]

theorem energy_f_sF : getEnergy tf4.f sF = 3 := by
  rw [getEnergy, trapz4, tf4_f]
  norm_num [sF, getPower_eq_normSq, Complex.normSq_apply]

theorem fwd_aF : getSpectrumFromPulse tf4.t aF = some sF := by
  have hS : (fun k => fftshift (fft aF) k * ((tf4.t 1 - tf4.t 0 : ℝ) : ℂ)) = sF := by
    rw [fft_aF, tf4_dt, fftshift4]
    funext k
    fin_cases k <;> norm_num [sPre, sF]
  simp only [getSpectrumFromPulse]
  rw [hS, show getFreqRangeFromTime tf4.t = tf4.f from rfl, energy_t_aF, energy_f_sF]
  rw [if_pos (by norm_num)]

theorem inv_time4 : getTimeFromFrequency tf4.f = ![-(2 : ℝ), -1, 0, 1] := by
  funext k
  rw [getTimeFromFrequency, show tf4.f 1 - tf4.f 0 = 1/4 by rw [tf4_f]; norm_num, fftshift_fftfreq]
  fin_cases k <;>
    norm_num [(show ((2 : Fin 4) : ℕ) = 2 from rfl), (show ((3 : Fin 4) : ℕ) = 3 from rfl)]

theorem energy_taxis_aF : getEnergy (getTimeFromFrequency tf4.f) aF = 3 := by
  rw [getEnergy, trapz4, inv_time4]
  norm_num [aF, getPower_eq_normSq, Complex.normSq_apply]

theorem inv_sF : getPulseFromSpectrum tf4.f sF = some aF := by
  have hdt : getTimeFromFrequency tf4.f 1 - getTimeFromFrequency tf4.f 0 = 1 := by
    rw [inv_time4]
    norm_num
  have hshift : ifftshift sF = sPre := by
    rw [ifftshift4]
    funext k
    fin_cases k <;> norm_num [sF, sPre]
  have hP : (fun k => ifft (ifftshift sF) k /
      ((getTimeFromFrequency tf4.f 1 - getTimeFromFrequency tf4.f 0 : ℝ) : ℂ)) = aF := by
    rw [hshift, ifft_sPre, hdt]
    funext k
    norm_num
  simp only [getPulseFromSpectrum]
  rw [hP, energy_taxis_aF, energy_f_sF]
  rw [if_pos (by norm_num)]

theorem fft_scale {N : ℕ} (a : Fin N → ℂ) (c : ℂ) :
    fft (fun n => c * a n) = fun k => c * fft a k := by
  funext k
  simp only [fft]
  rw [Finset.mul_sum]
  exact Finset.sum_congr rfl fun n _ => by ring

theorem ifft_scale_left {N : ℕ} (x : Fin N → ℂ) (c : ℂ) :
    ifft (fun k => c * x k) = fun k => c * ifft x k := by
  funext k
  simp only [ifft]
  rw [← mul_div_assoc]
  congr 1
  rw [Finset.mul_sum]
  exact Finset.sum_congr rfl fun n _ => by ring

theorem trapz_scale {N : ℕ} (x y : Fin N → ℝ) (d : ℝ) :
    trapz x (fun n => d * y n) = d * trapz x y := by
  simp only [trapz]
  rw [Finset.mul_sum]
  exact Finset.sum_congr rfl fun i _ => by ring

theorem getEnergy_scale {N : ℕ} (x : Fin N → ℝ) (a : Fin N → ℂ) (c : ℂ) :
    getEnergy x (fun n => c * a n) = Complex.normSq c * getEnergy x a := by
  simp only [getEnergy, getPower_eq_normSq]
  rw [← trapz_scale]
  congr 1
  funext n
  rw [Complex.normSq_mul]

theorem getSpectrum_scale {N : ℕ} [NeZero N] (t : Fin N → ℝ) (a : Fin N → ℂ) (c : ℂ)
    (hc : c ≠ 0) :
    getSpectrumFromPulse t (fun n => c * a n) =
      (getSpectrumFromPulse t a).map fun s => fun k => c * s k := by
  have hnc : Complex.normSq c ≠ 0 := by
    simpa [Complex.normSq_eq_zero] using hc
  simp only [getSpectrumFromPulse]
  have h1 : (fun k => fftshift (fft fun n => c * a n) k * ((t 1 - t 0 : ℝ) : ℂ)) =
      fun k => c * (fftshift (fft a) k * ((t 1 - t 0 : ℝ) : ℂ)) := by
    rw [fft_scale]
    funext k
    simp only [fftshift]
    ring
  rw [h1, getEnergy_scale, getEnergy_scale,
    mul_div_mul_left (getEnergy t a) _ hnc]
  by_cases h : |getEnergy t a / getEnergy (getFreqRangeFromTime t)
      (fun k => fftshift (fft a) k * ((t 1 - t 0 : ℝ) : ℂ)) - 1| < 1e-7
  · rw [if_pos h, if_pos h]
    rfl
  · rw [if_neg h, if_neg h]
    rfl

theorem getPulse_scale {N : ℕ} [NeZero N] (f : Fin N → ℝ) (s : Fin N → ℂ) (c : ℂ)
    (hc : c ≠ 0) :
    getPulseFromSpectrum f (fun k => c * s k) =
      (getPulseFromSpectrum f s).map fun p => fun k => c * p k := by
  have hnc : Complex.normSq c ≠ 0 := by
    simpa [Complex.normSq_eq_zero] using hc
  simp only [getPulseFromSpectrum]
  have h1 : (fun k => ifft (ifftshift fun j => c * s j) k /
      ((getTimeFromFrequency f 1 - getTimeFromFrequency f 0 : ℝ) : ℂ)) =
      fun k => c * (ifft (ifftshift s) k /
        ((getTimeFromFrequency f 1 - getTimeFromFrequency f 0 : ℝ) : ℂ)) := by
    have h2 : (ifftshift fun j => c * s j) = fun k => c * ifftshift s k := rfl
    rw [h2, ifft_scale_left]
    funext k
    ring
  rw [h1, getEnergy_scale, getEnergy_scale,
    mul_div_mul_left _ _ hnc]
  by_cases h : |getEnergy (getTimeFromFrequency f)
      (fun k => ifft (ifftshift s) k /
        ((getTimeFromFrequency f 1 - getTimeFromFrequency f 0 : ℝ) : ℂ)) /
      getEnergy f s - 1| < 1e-7
  · rw [if_pos h, if_pos h]
    rfl
  · rw [if_neg h, if_neg h]
    rfl

theorem diffList_cons_cons (x y : ℝ) (t : List ℝ) :
    diffList (x :: y :: t) = (y - x) :: diffList (y :: t) := rfl

theorem diffList_sum : ∀ (l : List ℝ) (x : ℝ), (diffList (x :: l)).sum = l.getLastD x - x := by
  intro l
  induction l with
  | nil => intro x; simp [diffList]
  | cons y t ih =>
      intro x
      rw [diffList_cons_cons, List.sum_cons, ih y, List.getLastD_cons]
      ring

theorem diffList_pos : ∀ (l : List ℝ), l.Chain' (· < ·) → ∀ d ∈ diffList l, 0 < d := by
  intro l
  induction l with
  | nil => intro _ d hd; simp [diffList] at hd
  | cons x t ih =>
      intro hchain d hd
      cases t with
      | nil => simp [diffList] at hd
      | cons y t2 =>
          rw [diffList_cons_cons] at hd
          rcases List.mem_cons.mp hd with h | h
          · have hxy : x < y := (List.chain'_cons.mp hchain).1
            rw [h]
            linarith
          · exact ih (List.chain'_cons.mp hchain).2 d h

theorem getLast?_cons_getLastD : ∀ (t : List ℝ) (x : ℝ), (x :: t).getLast? = some (t.getLastD x) := by
  intro t
  induction t with
  | nil => intro x; rfl
  | cons y t2 ih =>
      intro x
      rw [List.getLast?_cons_cons, ih y, List.getLastD_cons]

theorem diffList_sum_of_ends {l : List ℝ} {x y : ℝ} (hh : l.head? = some x)
    (hl : l.getLast? = some y) : (diffList l).sum = y - x := by
  cases l with
  | nil => simp at hh
  | cons a t =>
      have hax : a = x := by simpa using hh
      rw [getLast?_cons_getLastD] at hl
      have hy : t.getLastD a = y := by simpa using hl
      rw [diffList_sum, hy, hax]

theorem arange_head {L dz : ℝ} (h : 0 < ⌈L / dz⌉₊) : (arangeList L dz).head? = some 0 := by
  rw [arangeList]
  obtain ⟨m, hm⟩ := Nat.exists_eq_add_of_lt h
  rw [show ⌈L / dz⌉₊ = m + 1 by omega, List.range_succ_eq_map]
  simp

theorem arange_getLast {L dz : ℝ} (h : 0 < ⌈L / dz⌉₊) :
    (arangeList L dz).getLast? = some (((⌈L / dz⌉₊ - 1 : ℕ) : ℝ) * dz) := by
  rw [arangeList]
  obtain ⟨m, hm⟩ := Nat.exists_eq_add_of_lt h
  rw [show ⌈L / dz⌉₊ = m + 1 by omega]
  rw [List.range_succ, List.map_append]
  simp

theorem arange_last_lt {L dz : ℝ} (hL : 0 < L) (hdz : 0 < dz) :
    ((⌈L / dz⌉₊ - 1 : ℕ) : ℝ) * dz < L := by
  have hpos : 0 < ⌈L / dz⌉₊ := Nat.ceil_pos.mpr (div_pos hL hdz)
  have hlt : ((⌈L / dz⌉₊ - 1 : ℕ) : ℝ) < L / dz := by
    rw [← Nat.lt_ceil]
    omega
  calc ((⌈L / dz⌉₊ - 1 : ℕ) : ℝ) * dz < (L / dz) * dz := by
        exact mul_lt_mul_of_pos_right hlt hdz
    _ = L := by field_simp

theorem arange_chain {L dz : ℝ} (hdz : 0 < dz) : (arangeList L dz).Chain' (· < ·) := by
  rw [arangeList]
  rw [List.chain'_map]
  cases h : ⌈L / dz⌉₊ with
  | zero => exact List.chain'_nil
  | succ m =>
      rw [List.chain'_range_succ]
      intro i hi
      have : (i : ℝ) < (i + 1 : ℕ) := by exact_mod_cast Nat.lt_succ_self i
      exact mul_lt_mul_of_pos_right this hdz

theorem getZsteps_fixedStr {N : ℕ} (fiber : FiberC) (sig : InputSignalC N) (app : String)
    (safety : ℝ) (fuel : ℕ) (hL : 0 < fiber.Length)
    (hdz : 0 < zstep_NL 0 fiber sig app safety) :
    getZsteps fiber sig { mode := "fixed", approach := Sum.inl app, safety := safety } fuel =
      some (arangeList fiber.Length (zstep_NL 0 fiber sig app safety) ++ [fiber.Length],
        diffList (arangeList fiber.Length (zstep_NL 0 fiber sig app safety) ++ [fiber.Length])) := by
  set dz := zstep_NL 0 fiber sig app safety with hdzdef
  have hpos : 0 < ⌈fiber.Length / dz⌉₊ := Nat.ceil_pos.mpr (div_pos hL hdz)
  have hlast : (arangeList fiber.Length dz).getLast? =
      some (((⌈fiber.Length / dz⌉₊ - 1 : ℕ) : ℝ) * dz) := arange_getLast hpos
  have hne : ((⌈fiber.Length / dz⌉₊ - 1 : ℕ) : ℝ) * dz ≠ fiber.Length :=
    ne_of_lt (arange_last_lt hL hdz)
  simp only [getZsteps]
  rw [if_pos (by decide)]
  rw [hlast]
  simp only [if_neg hne]

theorem varLoop_some_props {N : ℕ} {fiber : FiberC} {sig : InputSignalC N} {mode : String}
    {safety : ℝ} (hstep : ∀ z', 0 ≤ z' → 0 < zstep_NL z' fiber sig mode safety) :
    ∀ (fuel : ℕ) (z : ℝ) (zs dzs : List ℝ) (r : ℝ × List ℝ × List ℝ),
      varLoop fiber sig mode safety fuel z zs dzs = some r →
      0 ≤ z → z ≤ fiber.Length → (∀ d ∈ dzs, 0 < d) → dzs.sum = z →
      zs.head? = some 0 → zs.getLast? = some z →
      0 ≤ r.1 ∧ r.1 ≤ fiber.Length ∧ (∀ d ∈ r.2.2, 0 < d) ∧ r.2.2.sum = r.1 ∧
        r.2.1.head? = some 0 ∧ r.2.1.getLast? = some r.1 := by
  intro fuel
  induction fuel with
  | zero =>
      intro z zs dzs r hr hz0 hzL hdzs hsum hhead hlast
      rw [varLoop] at hr
      split at hr
      · exact absurd hr (by simp)
      · have := Option.some_injective _ hr
        subst this
        exact ⟨hz0, hzL, hdzs, hsum, hhead, hlast⟩
  | succ fuel ih =>
      intro z zs dzs r hr hz0 hzL hdzs hsum hhead hlast
      rw [varLoop] at hr
      split at hr
      · rename_i hcond
        have hdzpos : 0 < zstep_NL z fiber sig mode safety := hstep z hz0
        refine ih (z + zstep_NL z fiber sig mode safety)
          (zs ++ [z + zstep_NL z fiber sig mode safety])
          (dzs ++ [zstep_NL z fiber sig mode safety]) r hr
          (by linarith) hcond ?_ ?_ ?_ ?_
        · intro d hd
          rcases List.mem_append.mp hd with h | h
          · exact hdzs d h
          · rw [List.mem_singleton.mp h]
            exact hdzpos
        · rw [List.sum_append, hsum]
          simp
        · rw [List.head?_append, hhead]
          rfl
        · rw [List.getLast?_concat]
      · have := Option.some_injective _ hr
        subst this
        exact ⟨hz0, hzL, hdzs, hsum, hhead, hlast⟩

theorem getVariableZsteps_props {N : ℕ} {fiber : FiberC} {sig : InputSignalC N} {mode : String}
    {safety : ℝ} {fuel : ℕ} {out : List ℝ × List ℝ}
    (hstep : ∀ z', 0 ≤ z' → 0 < zstep_NL z' fiber sig mode safety)
    (hL : 0 ≤ fiber.Length)
    (hout : getVariableZsteps fuel fiber sig mode safety = some out) :
    out.1.head? = some 0 ∧ out.1.getLast? = some fiber.Length ∧
      out.2.sum = fiber.Length ∧ (∀ d ∈ out.2.dropLast, 0 < d) ∧
      (∃ dlast, out.2.getLast? = some dlast ∧ 0 ≤ dlast) := by
  rw [getVariableZsteps] at hout
  cases hvl : varLoop fiber sig mode safety fuel 0 [0] [] with
  | none => rw [hvl] at hout; exact absurd hout (by simp)
  | some r =>
      rw [hvl] at hout
      have hr := varLoop_some_props hstep fuel 0 [0] [] r hvl le_rfl hL
        (by intro d hd; simp at hd) (by simp) (by simp) (by simp)
      obtain ⟨hr0, hrL, hrpos, hrsum, hrhead, hrlast⟩ := hr
      have hout2 : out = (r.2.1 ++ [fiber.Length], r.2.2 ++ [fiber.Length - r.1]) := by
        simpa using hout.symm
      subst hout2
      refine ⟨?_, ?_, ?_, ?_, ?_⟩
      · rw [List.head?_append, hrhead]
        rfl
      · rw [List.getLast?_concat]
      · rw [List.sum_append, hrsum]
        simp
      · rw [List.dropLast_concat]
        exact hrpos
      · exact ⟨fiber.Length - r.1, List.getLast?_concat _, by linarith⟩

theorem varLoop_terminates {N : ℕ} {fiber : FiberC} {sig : InputSignalC N} {mode : String}
    {safety : ℝ} {c : ℝ} (hc : 0 < c)
    (hstep : ∀ z', 0 ≤ z' → c ≤ zstep_NL z' fiber sig mode safety) :
    ∀ (n : ℕ) (z : ℝ) (zs dzs : List ℝ), 0 ≤ z → fiber.Length - z < n * c →
      (varLoop fiber sig mode safety n z zs dzs).isSome := by
  intro n
  induction n with
  | zero =>
      intro z zs dzs hz0 hbound
      rw [varLoop]
      rw [if_neg (by
        have := hstep z hz0
        push_cast at hbound
        intro hle
        linarith)]
      simp
  | succ n ih =>
      intro z zs dzs hz0 hbound
      rw [varLoop]
      split
      · rename_i hcond
        refine ih (z + zstep_NL z fiber sig mode safety) _ _ ?_ ?_
        · have := hstep z hz0
          linarith
        · have := hstep z hz0
          push_cast at hbound ⊢
          linarith
      · simp

theorem diffList_length (l : List ℝ) : (diffList l).length = l.length - 1 := by
  rw [diffList, List.length_zipWith, List.length_tail]
  omega

theorem diffList_ne_nil {l : List ℝ} (h : 2 ≤ l.length) : diffList l ≠ [] := by
  have := diffList_length l
  intro hnil
  rw [hnil] at this
  simp at this
  omega

theorem linspace_head (L : ℝ) (M : ℕ) : (linspaceList 0 L (M + 1)).head? = some 0 := by
  rw [linspaceList, List.range_succ_eq_map]
  simp

theorem linspace_getLast (L : ℝ) (M : ℕ) (h : 1 ≤ M) :
    (linspaceList 0 L (M + 1)).getLast? = some L := by
  rw [linspaceList, List.range_succ, List.map_append]
  have hM : (M : ℝ) ≠ 0 := Nat.cast_ne_zero.mpr (by omega)
  simp only [List.map_cons, List.map_nil, List.getLast?_concat]
  congr 1
  push_cast
  field_simp

theorem linspace_getD1 (L : ℝ) {M : ℕ} (h : 1 ≤ M) :
    (linspaceList 0 L (M + 1)).getD 1 0 = L / M := by
  rw [linspaceList, List.getD_eq_getElem?_getD, List.getElem?_map, List.getElem?_range (by omega)]
  push_cast
  norm_num

theorem linspace_getD0 (L : ℝ) (M : ℕ) :
    (linspaceList 0 L (M + 1)).getD 0 0 = 0 := by
  rw [linspaceList, List.getD_eq_getElem?_getD, List.getElem?_map, List.getElem?_range (by omega)]
  norm_num

theorem arange_length (L dz : ℝ) : (arangeList L dz).length = ⌈L / dz⌉₊ := by
  rw [arangeList, List.length_map, List.length_range]

theorem fixedStr_zarr_chain {L dz : ℝ} (hL : 0 < L) (hdz : 0 < dz) :
    (arangeList L dz ++ [L]).Chain' (· < ·) := by
  rw [List.chain'_append]
  refine ⟨arange_chain hdz, List.chain'_singleton L, ?_⟩
  intro x hx y hy
  have hpos : 0 < ⌈L / dz⌉₊ := Nat.ceil_pos.mpr (div_pos hL hdz)
  rw [arange_getLast hpos] at hx
  simp only [Option.mem_def, Option.some_inj] at hx
  simp only [List.head?_cons, Option.mem_def, Option.some_inj] at hy
  rw [← hx, ← hy]
  exact arange_last_lt hL hdz

theorem zstep_gamma0 {N : ℕ} (z : ℝ) (fiber : FiberC) (sig : InputSignalC N) (mode : String)
    (s : ℝ) (h : fiber.gamma = 0) : zstep_NL z fiber sig mode s = fiber.Length := by
  simp only [zstep_NL]
  rw [if_pos h]

theorem zstep_beta0 {N : ℕ} (z : ℝ) (fiber : FiberC) (sig : InputSignalC N) (mode : String)
    (s : ℝ) (h : fiber.beta2 = 0) : zstep_NL z fiber sig mode s = fiber.Length := by
  simp only [zstep_NL]
  by_cases hg : fiber.gamma = 0
  · rw [if_pos hg]
  · rw [if_neg hg, if_pos h]

/-- C2 amended: every schedule (z_array, dz_array) returned by getZsteps for a fiber of
positive length (with positive zstep values and, for an integer approach, M at least 1)
satisfies z_0 = 0, z_M = L and sum(dz) = L; every step except possibly the last is
strictly positive, the last is nonnegative, and in fixed mode every step including the
last is strictly positive. (The original claim fails: in variable mode the final step
can be exactly zero.) -/
theorem C2_schedule_invariants {N : ℕ} {fiber : FiberC} {sig : InputSignalC N} {cfg : StepCfg}
    {fuel : ℕ} {out : List ℝ × List ℝ}
    (hL : 0 < fiber.Length)
    (hstr : ∀ app, cfg.approach = Sum.inl app →
      ∀ z', 0 ≤ z' → 0 < zstep_NL z' fiber sig app cfg.safety)
    (hint : ∀ M, cfg.approach = Sum.inr M → 1 ≤ M)
    (hout : getZsteps fiber sig cfg fuel = some out) :
    out.1.head? = some 0 ∧ out.1.getLast? = some fiber.Length ∧
      out.2.sum = fiber.Length ∧ (∀ d ∈ out.2.dropLast, 0 < d) ∧
      (∃ dlast, out.2.getLast? = some dlast ∧ 0 ≤ dlast) ∧
      (pyLower cfg.mode = "fixed" → ∀ d ∈ out.2, 0 < d) := by
  rw [getZsteps] at hout
  by_cases hmode : pyLower cfg.mode = "fixed"
  · rw [if_pos hmode] at hout
    cases happ : cfg.approach with
    | inl app =>
        rw [happ] at hout
        dsimp only at hout
        have hdz := hstr app happ 0 le_rfl
        set dz := zstep_NL 0 fiber sig app cfg.safety with hdzdef
        have hpos : 0 < ⌈fiber.Length / dz⌉₊ := Nat.ceil_pos.mpr (div_pos hL hdz)
        rw [arange_getLast hpos] at hout
        simp only [] at hout
        rw [if_neg (ne_of_lt (arange_last_lt hL hdz))] at hout
        have hout2 : out = (arangeList fiber.Length dz ++ [fiber.Length],
            diffList (arangeList fiber.Length dz ++ [fiber.Length])) := by
          simpa using hout.symm
        subst hout2
        have hhead : (arangeList fiber.Length dz ++ [fiber.Length]).head? = some 0 := by
          rw [List.head?_append, arange_head hpos]
          rfl
        have hlast : (arangeList fiber.Length dz ++ [fiber.Length]).getLast? =
            some fiber.Length := List.getLast?_concat _
        have hchain := fixedStr_zarr_chain hL hdz
        have hposall := diffList_pos _ hchain
        have hlen : 2 ≤ (arangeList fiber.Length dz ++ [fiber.Length]).length := by
          rw [List.length_append, arange_length]
          have := hpos
          simp only [List.length_singleton]
          omega
        have hdne := diffList_ne_nil hlen
        refine ⟨hhead, hlast, ?_, ?_, ?_, ?_⟩
        · rw [diffList_sum_of_ends hhead hlast]
          ring
        · intro d hd
          exact hposall d (List.dropLast_subset _ hd)
        · cases hgl : (diffList (arangeList fiber.Length dz ++ [fiber.Length])).getLast? with
          | none => exact absurd (List.getLast?_eq_none_iff.mp hgl) hdne
          | some dlast =>
              exact ⟨dlast, rfl, le_of_lt (hposall dlast (List.mem_of_getLast?_eq_some hgl))⟩
        · intro _ d hd
          exact hposall d hd
    | inr M =>
        rw [happ] at hout
        dsimp only at hout
        have hM := hint M happ
        have hMR : (0 : ℝ) < M := by exact_mod_cast Nat.pos_of_ne_zero (by omega)
        have hout2 : out = (linspaceList 0 fiber.Length (M + 1),
            List.replicate M ((linspaceList 0 fiber.Length (M + 1)).getD 1 0 -
              (linspaceList 0 fiber.Length (M + 1)).getD 0 0)) := by
          simpa using hout.symm
        subst hout2
        rw [linspace_getD1 fiber.Length hM, linspace_getD0]
        have hstep : (0 : ℝ) < fiber.Length / M := div_pos hL hMR
        refine ⟨linspace_head _ _, linspace_getLast _ _ hM, ?_, ?_, ?_, ?_⟩
        · rw [sub_zero, List.sum_replicate, nsmul_eq_mul]
          field_simp
        · intro d hd
          have := List.dropLast_subset _ hd
          rw [List.eq_of_mem_replicate this]
          linarith
        · obtain ⟨m, hm⟩ := Nat.exists_eq_add_of_lt (show 0 < M by omega)
          have hM1 : M = m + 1 := by omega
          subst hM1
          rw [List.replicate_succ', List.getLast?_concat]
          exact ⟨_, rfl, by linarith⟩
        · intro _ d hd
          rw [List.eq_of_mem_replicate hd]
          linarith
  · rw [if_neg hmode] at hout
    cases happ : cfg.approach with
    | inl app =>
        rw [happ] at hout
        dsimp only at hout
        have hprops := getVariableZsteps_props (hstr app happ) (le_of_lt hL) hout
        exact ⟨hprops.1, hprops.2.1, hprops.2.2.1, hprops.2.2.2.1, hprops.2.2.2.2,
          fun h => absurd h hmode⟩
    | inr M =>
        rw [happ] at hout
        dsimp only at hout
        split at hout
        · rename_i hdeg
          have hstep0 : ∀ z', 0 ≤ z' → 0 < zstep_NL z' fiber sig ("") cfg.safety := by
            intro z' _
            rcases hdeg with h | h
            · rw [zstep_gamma0 z' fiber sig ("") cfg.safety h]
              exact hL
            · rw [zstep_beta0 z' fiber sig ("") cfg.safety h]
              exact hL
          have hprops := getVariableZsteps_props hstep0 (le_of_lt hL) hout
          exact ⟨hprops.1, hprops.2.1, hprops.2.2.1, hprops.2.2.2.1, hprops.2.2.2.2,
            fun h => absurd h hmode⟩
        · exact absurd hout (by simp)

theorem zstep_cautious {N : ℕ} (z : ℝ) (fiber : FiberC) (sig : InputSignalC N) (s : ℝ)
    (hg : fiber.gamma ≠ 0) (hb : fiber.beta2 ≠ 0) :
    zstep_NL z fiber sig ("cautious") s =
      |fiber.beta2| * π / (fiber.gamma * sig.Pmax * sig.duration) ^ 2 *
        Real.exp (2 * fiber.alpha_Np_per_m * z) / s := by
  simp only [zstep_NL]
  rw [if_neg hg, if_neg hb, if_pos (by decide)]

/-- Amended C8 core: an unknown step mode yields the fallback step 1.0, not an error. -/
theorem zstep_unknown_mode {N : ℕ} (z : ℝ) (fiber : FiberC) (sig : InputSignalC N)
    (mode : String) (s : ℝ) (hg : fiber.gamma ≠ 0) (hb : fiber.beta2 ≠ 0)
    (h1 : pyLower mode ≠ "cautious") (h2 : pyLower mode ≠ "approx") :
    zstep_NL z fiber sig mode s = 1 := by
  simp only [zstep_NL]
  rw [if_neg hg, if_neg hb, if_neg h1, if_neg h2]

theorem mkFiber_alpha0 (L g b : ℝ) : (mkFiber L g b 0).alpha_Np_per_m = 0 := by
  simp [mkFiber]

theorem zstep_fiberK {N : ℕ} (z : ℝ) (sig : InputSignalC N) :
    zstep_NL z fiberK sig ("cautious") 1 = 1 / (sig.Pmax * sig.duration) ^ 2 := by
  rw [fiberK, zstep_cautious z _ sig 1 (by norm_num [mkFiber])
    (by norm_num [mkFiber, Real.pi_ne_zero]), mkFiber_alpha0]
  simp only [mkFiber]
  rw [abs_of_pos (by positivity)]
  rw [show (2 : ℝ) * 0 * z = 0 by ring, Real.exp_zero]
  field_simp

theorem zstep_fiberC9 {N : ℕ} (z : ℝ) (sig : InputSignalC N) (hP : sig.Pmax = 1)
    (hd : sig.duration = 1) : zstep_NL z fiberC9 sig ("cautious") 1 = 1 := by
  rw [fiberC9, zstep_cautious z _ sig 1 (by norm_num [mkFiber])
    (by norm_num [mkFiber, Real.pi_ne_zero]), mkFiber_alpha0]
  simp only [mkFiber]
  rw [abs_of_pos (by positivity), hP, hd]
  rw [show (2 : ℝ) * 0 * z = 0 by ring, Real.exp_zero]
  field_simp

theorem getZsteps_gamma0_L1 {N : ℕ} (fiber : FiberC) (sig : InputSignalC N) (app : String)
    (safety : ℝ) (fuel : ℕ) (hg : fiber.gamma = 0) (hL : fiber.Length = 1) :
    getZsteps fiber sig { mode := "fixed", approach := Sum.inl app, safety := safety } fuel =
      some ([0, 1], [1]) := by
  simp only [getZsteps]
  rw [if_pos (by decide)]
  rw [zstep_gamma0 0 fiber sig app safety hg, hL]
  rw [show arangeList 1 1 = [0] by
    rw [arangeList]
    norm_num [List.range_succ]]
  simp only [List.getLast?_cons, List.getLastD]
  rw [if_neg (by norm_num)]
  rw [show ([(0 : ℝ)] ++ [1]) = [0, 1] from rfl]
  rw [show diffList [(0 : ℝ), 1] = [1] by
    rw [show ([(0 : ℝ), 1]) = 0 :: [1] from rfl, diffList_cons_cons]
    norm_num [diffList]]

theorem updateSignal_amplitude {N : ℕ} [NeZero N] (sig : InputSignalC N) (p : Fin N → ℂ) :
    (updateSignal sig p).amplitude = p := rfl

theorem updateSignal_Pmax {N : ℕ} [NeZero N] (sig : InputSignalC N) (p : Fin N → ℂ) :
    (updateSignal sig p).Pmax = maxPower p := rfl

theorem updateSignal_duration {N : ℕ} [NeZero N] (sig : InputSignalC N) (p : Fin N → ℂ) :
    (updateSignal sig p).duration = sig.duration := rfl

theorem updateSignal_spectrum {N : ℕ} [NeZero N] (sig : InputSignalC N) (p : Fin N → ℂ) :
    (updateSignal sig p).spectrum = sig.spectrum := rfl

theorem updateSignal_timeFreq {N : ℕ} [NeZero N] (sig : InputSignalC N) (p : Fin N → ℂ) :
    (updateSignal sig p).timeFreq = sig.timeFreq := rfl

theorem maxPower_aF : maxPower aF = 1 := by
  rw [maxPower]
  have h : (fun n => getPower (aF n)) = fun _ : Fin 4 => (1 : ℝ) := by
    funext n
    fin_cases n <;> norm_num [aF, getPower_eq_normSq, Complex.normSq_apply]
  rw [h]
  simp

theorem varEval_fiberV : getZsteps fiberV sigBase cfgVar 2 = some ([0, 1, 1], [1, 0]) := by
  have hz : ∀ z : ℝ, zstep_NL z fiberV sigBase ("cautious") 1 = 1 := fun z => by
    rw [zstep_gamma0 z fiberV sigBase _ 1 (by norm_num [fiberV, mkFiber])]
    norm_num [fiberV, mkFiber]
  simp only [getZsteps, cfgVar]
  rw [if_neg (by decide)]
  simp only [getVariableZsteps, varLoop, hz]
  rw [show fiberV.Length = 1 by norm_num [fiberV, mkFiber]]
  norm_num

theorem intEval_fiberV : getZsteps fiberV sigBase cfgF2 9 = some ([0, 1/2, 1], [1/2, 1/2]) := by
  simp only [getZsteps, cfgF2]
  rw [if_pos (by decide)]
  rw [show fiberV.Length = 1 by norm_num [fiberV, mkFiber]]
  rw [show linspaceList 0 1 (2 + 1) = [0, 1/2, 1] by
    rw [linspaceList]
    norm_num [List.range_succ]]
  norm_num [List.replicate]

theorem varEval_fiberC9 : getZsteps fiberC9 sigBase cfgVar 5 = some ([0, 1, 2, 3, 7/2], [1, 1, 1, 1/2]) := by
  have hz : ∀ z : ℝ, zstep_NL z fiberC9 sigBase ("cautious") 1 = 1 := fun z =>
    zstep_fiberC9 z sigBase rfl rfl
  simp only [getZsteps, cfgVar]
  rw [if_neg (by decide)]
  simp only [getVariableZsteps, varLoop, hz]
  rw [show fiberC9.Length = 7/2 by norm_num [fiberC9, mkFiber]]
  norm_num

theorem getZsteps_cautious_dz1 {N : ℕ} (fiber : FiberC) (sig : InputSignalC N) (fuel : ℕ)
    (h : zstep_NL 0 fiber sig ("cautious") 1 = 1) (hL : fiber.Length = 1) :
    getZsteps fiber sig cfgFC fuel = some ([0, 1], [1]) := by
  simp only [getZsteps, cfgFC]
  rw [if_pos (by decide)]
  rw [h, hL]
  rw [show arangeList 1 1 = [0] by
    rw [arangeList]
    norm_num [List.range_succ]]
  simp only [List.getLast?_cons, List.getLastD]
  rw [if_neg (by norm_num)]
  rw [show ([(0 : ℝ)] ++ [1]) = [0, 1] from rfl]
  rw [show diffList [(0 : ℝ), 1] = [1] by
    rw [show ([(0 : ℝ), 1]) = 0 :: [1] from rfl, diffList_cons_cons]
    norm_num [diffList]]

theorem sigBase_duration : sigBase.duration = 1 := rfl

theorem sigTau2_duration : sigTau2.duration = 2 := rfl

theorem schedK_tau1 : getZsteps fiberK (updateSignal sigBase aF) cfgFC 9 = some ([0, 1], [1]) := by
  apply getZsteps_cautious_dz1
  · rw [zstep_fiberK, updateSignal_Pmax, maxPower_aF, updateSignal_duration, sigBase_duration]
    norm_num
  · norm_num [fiberK, mkFiber]

theorem schedK_tau2 : getZsteps fiberK (updateSignal sigTau2 aF) cfgFC 9 =
    some ([0, 1/4, 1/2, 3/4, 1], [1/4, 1/4, 1/4, 1/4]) := by
  have hdz : zstep_NL 0 fiberK (updateSignal sigTau2 aF) ("cautious") 1 = 1/4 := by
    rw [zstep_fiberK, updateSignal_Pmax, maxPower_aF, updateSignal_duration, sigTau2_duration]
    norm_num
  simp only [getZsteps, cfgFC]
  rw [if_pos (by decide)]
  rw [hdz]
  rw [show fiberK.Length = 1 by norm_num [fiberK, mkFiber]]
  rw [show arangeList 1 (1/4) = [0, 1/4, 1/2, 3/4] by
    rw [arangeList]
    rw [show ⌈(1 : ℝ) / (1/4)⌉₊ = 4 by norm_num]
    norm_num [List.range_succ]]
  simp only [List.getLast?_cons, List.getLastD]
  rw [if_neg (by norm_num)]
  rw [show ([(0 : ℝ), 1/4, 1/2, 3/4] ++ [1]) = [0, 1/4, 1/2, 3/4, 1] from rfl]
  rw [show diffList [(0 : ℝ), 1/4, 1/2, 3/4, 1] = [1/4, 1/4, 1/4, 1/4] by
    simp [diffList]
    norm_num]

theorem dispAndLoss_fiberI : dispAndLoss fiberI tf4 = fun _ => 1 := by
  funext k
  simp [dispAndLoss, fiberI, mkFiber]

theorem log_ten_ne_zero : Real.log 10 ≠ 0 :=
  ne_of_gt (Real.log_pos (by norm_num))

theorem fiberA_alphaNp : fiberA.alpha_Np_per_m = 2 * Real.log 2 := by
  simp only [fiberA, mkFiber]
  field_simp
  ring

theorem exp_neg_log_two : Complex.exp (-((Real.log 2 : ℝ) : ℂ)) = 1 / 2 := by
  rw [← Complex.ofReal_neg, ← Complex.ofReal_exp, Real.exp_neg, Real.exp_log (by norm_num)]
  norm_num

theorem dispAndLoss_fiberA : dispAndLoss fiberA tf4 = fun _ => (1/2 : ℂ) := by
  funext k
  simp only [dispAndLoss, fiberA_alphaNp]
  rw [show fiberA.beta2 = 0 by norm_num [fiberA, mkFiber]]
  rw [show I * ((0 : ℝ) : ℂ) / 2 * (((2 * π * tf4.f k : ℝ) : ℂ)) ^ 2 -
    ((2 * Real.log 2 : ℝ) : ℂ) / 2 = -((Real.log 2 : ℝ) : ℂ) by push_cast; ring]
  exact exp_neg_log_two

theorem nonlinear_gamma0 {N : ℕ} (fiber : FiberC) (hg : fiber.gamma = 0) (dz : ℝ)
    (p : Fin N → ℂ) :
    (fun n => p n * Complex.exp (I * (fiber.gamma : ℂ) * ((getPower (p n) : ℝ) : ℂ) * (dz : ℂ))) = p := by
  funext n
  rw [hg]
  simp

theorem ssfmStep_fiberI : ssfmStep tf4 fiberI 1 aF = some (aF, sF) := by
  simp only [ssfmStep]
  rw [nonlinear_gamma0 fiberI (by norm_num [fiberI, mkFiber]) 1 aF]
  rw [fwd_aF]
  have hs1 : (fun k => sF k * (dispAndLoss fiberI tf4 k) ^ (((1 : ℝ)) : ℂ)) = sF := by
    funext k
    rw [dispAndLoss_fiberI]
    simp
  rw [Option.some_bind, hs1, inv_sF]
  rfl

theorem sHalf_smul : sHalf = fun k => (1/2 : ℂ) * sF k := by
  funext k
  rw [sHalf]
  ring

theorem aHalf_smul : aHalf = fun k => (1/2 : ℂ) * aF k := by
  funext k
  rw [aHalf]
  ring

theorem inv_sHalf : getPulseFromSpectrum tf4.f sHalf = some aHalf := by
  rw [sHalf_smul, getPulse_scale tf4.f sF (1/2 : ℂ) (by norm_num), inv_sF]
  rw [Option.map_some']
  rw [← aHalf_smul]

theorem ssfmStep_fiberA_aF : ssfmStep tf4 fiberA 1 aF = some (aHalf, sHalf) := by
  simp only [ssfmStep]
  rw [nonlinear_gamma0 fiberA (by norm_num [fiberA, mkFiber]) 1 aF]
  rw [fwd_aF]
  have hs1 : (fun k => sF k * (dispAndLoss fiberA tf4 k) ^ (((1 : ℝ)) : ℂ)) = sHalf := by
    funext k
    rw [dispAndLoss_fiberA, sHalf]
    rw [Complex.ofReal_one, Complex.cpow_one]
    ring
  rw [Option.some_bind, hs1, inv_sHalf]
  rfl

theorem fwd_aHalf : getSpectrumFromPulse tf4.t aHalf = some sHalf := by
  rw [aHalf_smul, getSpectrum_scale tf4.t aF (1/2 : ℂ) (by norm_num), fwd_aF]
  rw [Option.map_some']
  rw [← sHalf_smul]

theorem sQuarter_smul : sQuarter = fun k => (1/4 : ℂ) * sF k := by
  funext k
  rw [sQuarter]
  ring

theorem aQuarter_smul : aQuarter = fun k => (1/4 : ℂ) * aF k := by
  funext k
  rw [aQuarter]
  ring

theorem inv_sQuarter : getPulseFromSpectrum tf4.f sQuarter = some aQuarter := by
  rw [sQuarter_smul, getPulse_scale tf4.f sF (1/4 : ℂ) (by norm_num), inv_sF]
  rw [Option.map_some']
  rw [← aQuarter_smul]

theorem ssfmStep_fiberA_aHalf : ssfmStep tf4 fiberA 1 aHalf = some (aQuarter, sQuarter) := by
  simp only [ssfmStep]
  rw [nonlinear_gamma0 fiberA (by norm_num [fiberA, mkFiber]) 1 aHalf]
  rw [fwd_aHalf]
  have hs1 : (fun k => sHalf k * (dispAndLoss fiberA tf4 k) ^ (((1 : ℝ)) : ℂ)) = sQuarter := by
    funext k
    rw [dispAndLoss_fiberA, sHalf, sQuarter]
    rw [Complex.ofReal_one, Complex.cpow_one]
    ring
  rw [Option.some_bind, hs1, inv_sQuarter]
  rfl

theorem runFiber_single {N : ℕ} [NeZero N] (fuel : ℕ) (fiber : FiberC) (cfg : StepCfg)
    (sig : InputSignalC N) (zs : List ℝ) (dz : ℝ) (p2 s1 : Fin N → ℂ)
    (hz : getZsteps fiber sig cfg fuel = some (zs, [dz]))
    (hstep : ssfmStep sig.timeFreq fiber dz sig.amplitude = some (p2, s1)) :
    ssfmRunFiber fuel fiber cfg sig =
      some ({ zinfo := (zs, [dz]), pulseRows := [sig.amplitude, p2],
              spectrumRows := [sig.spectrum, s1] }, updateSignal sig p2) := by
  simp only [ssfmRunFiber, hz, Option.some_bind, runSteps, hstep]
  rfl

theorem runFiberI_base : ssfmRunFiber 9 fiberI cfgFC sigBase =
    some ({ zinfo := ([0, 1], [1]), pulseRows := [aF, aF], spectrumRows := [sF, sF] },
      updateSignal sigBase aF) :=
  runFiber_single 9 fiberI cfgFC sigBase [0, 1] 1 aF sF
    (getZsteps_gamma0_L1 fiberI sigBase ("cautious") 1 9 (by norm_num [fiberI, mkFiber])
      (by norm_num [fiberI, mkFiber]))
    ssfmStep_fiberI

theorem runFiberI_tau2 : ssfmRunFiber 9 fiberI cfgFC sigTau2 =
    some ({ zinfo := ([0, 1], [1]), pulseRows := [aF, aF], spectrumRows := [sF, sF] },
      updateSignal sigTau2 aF) :=
  runFiber_single 9 fiberI cfgFC sigTau2 [0, 1] 1 aF sF
    (getZsteps_gamma0_L1 fiberI sigTau2 ("cautious") 1 9 (by norm_num [fiberI, mkFiber])
      (by norm_num [fiberI, mkFiber]))
    ssfmStep_fiberI

theorem runFiberA_base : ssfmRunFiber 9 fiberA cfgFC sigBase =
    some ({ zinfo := ([0, 1], [1]), pulseRows := [aF, aHalf], spectrumRows := [sF, sHalf] },
      updateSignal sigBase aHalf) :=
  runFiber_single 9 fiberA cfgFC sigBase [0, 1] 1 aHalf sHalf
    (getZsteps_gamma0_L1 fiberA sigBase ("cautious") 1 9 (by norm_num [fiberA, mkFiber])
      (by norm_num [fiberA, mkFiber]))
    ssfmStep_fiberA_aF

theorem runFiberA_half : ssfmRunFiber 9 fiberA cfgFC (updateSignal sigBase aHalf) =
    some ({ zinfo := ([0, 1], [1]), pulseRows := [aHalf, aQuarter],
            spectrumRows := [sF, sQuarter] },
      updateSignal (updateSignal sigBase aHalf) aQuarter) :=
  runFiber_single 9 fiberA cfgFC (updateSignal sigBase aHalf) [0, 1] 1 aQuarter sQuarter
    (getZsteps_gamma0_L1 fiberA (updateSignal sigBase aHalf) ("cautious") 1 9
      (by norm_num [fiberA, mkFiber]) (by norm_num [fiberA, mkFiber]))
    ssfmStep_fiberA_aHalf

theorem SSFM_single_fiberA : SSFM 9 [fiberA] cfgFC sigBase =
    some ([{ zinfo := ([0, 1], [1]), pulseRows := [aF, aHalf], spectrumRows := [sF, sHalf] }],
      updateSignal sigBase aHalf) := by
  simp only [SSFM, runFiberA_base, Option.some_bind, Option.map_some']

theorem SSFM_two_fiberA : SSFM 9 [fiberA, fiberA] cfgFC sigBase =
    some ([{ zinfo := ([0, 1], [1]), pulseRows := [aF, aHalf], spectrumRows := [sF, sHalf] },
      { zinfo := ([0, 1], [1]), pulseRows := [aHalf, aQuarter], spectrumRows := [sF, sQuarter] }],
      updateSignal (updateSignal sigBase aHalf) aQuarter) := by
  simp only [SSFM, runFiberA_base, Option.some_bind, runFiberA_half, Option.map_some']

theorem tfC1_t : tfC1.t = ![-(3 : ℝ)/8, -1/8, 1/8, 3/8] := by
  funext k
  show linspaceF 0 ((4 : ℕ) * (3/16)) 4 k - meanF (linspaceF 0 ((4 : ℕ) * (3/16)) 4) = _
  fin_cases k <;>
    norm_num [linspaceF, meanF, Fin.sum_univ_four,
      (show ((2 : Fin 4) : ℕ) = 2 from rfl), (show ((3 : Fin 4) : ℕ) = 3 from rfl)]

theorem tfC1_dt : tfC1.t 1 - tfC1.t 0 = 1/4 := by
  rw [tfC1_t]
  norm_num

theorem tfC1_f3 : tfC1.f 3 = 1 := by
  show getFreqRangeFromTime tfC1.t 3 = 1
  rw [getFreqRangeFromTime, tfC1_dt, fftshift_fftfreq]
  norm_num [(show ((3 : Fin 4) : ℕ) = 3 from rfl)]

theorem piC_ne_zero : ((π : ℝ) : ℂ) ≠ 0 := Complex.ofReal_ne_zero.mpr Real.pi_ne_zero

theorem dispC1 : dispAndLoss fiberC1 tfC1 3 = Complex.exp (4 * I) := by
  simp only [dispAndLoss]
  rw [tfC1_f3]
  rw [show fiberC1.beta2 = 2/π^2 by norm_num [fiberC1, mkFiber]]
  rw [show fiberC1.alpha_Np_per_m = 0 from mkFiber_alpha0 1 1 (2/π^2)]
  congr 1
  push_cast
  field_simp
  rw [div_eq_iff (mul_ne_zero (pow_ne_zero 2 piC_ne_zero) two_ne_zero)]
  ring

theorem specC1 : specLinearFactor fiberC1 (tfC1.f 3) (1/2) = Complex.exp (2 * I) := by
  rw [specLinearFactor, tfC1_f3]
  rw [show fiberC1.beta2 = 2/π^2 by norm_num [fiberC1, mkFiber]]
  rw [show fiberC1.alpha_Np_per_m = 0 from mkFiber_alpha0 1 1 (2/π^2)]
  congr 1
  push_cast
  field_simp
  rw [div_eq_iff (mul_ne_zero (mul_ne_zero (pow_ne_zero 2 piC_ne_zero) two_ne_zero) two_ne_zero)]
  ring

theorem cpow_half_exp4I : (Complex.exp (4 * I)) ^ ((1/2 : ℝ) : ℂ) = -Complex.exp (2 * I) := by
  have hper : Complex.exp (4 * I) = Complex.exp (((4 - 2*π : ℝ) : ℂ) * I) := by
    rw [show ((4 : ℂ) * I) = ((4 - 2*π : ℝ) : ℂ) * I + 2 * ↑π * I by push_cast; ring,
      Complex.exp_add, Complex.exp_two_pi_mul_I, mul_one]
  rw [hper, Complex.cpow_def_of_ne_zero (Complex.exp_ne_zero _)]
  rw [Complex.log_exp ?h1 ?h2]
  case h1 =>
    simp only [Complex.mul_I_im, Complex.ofReal_re]
    have := Real.pi_lt_d2
    linarith
  case h2 =>
    simp only [Complex.mul_I_im, Complex.ofReal_re]
    have := Real.pi_gt_three
    linarith
  rw [show ((4 - 2*π : ℝ) : ℂ) * I * ((1/2 : ℝ) : ℂ) = 2 * I + -(↑π * I) by push_cast; ring]
  rw [Complex.exp_add, Complex.exp_neg, Complex.exp_pi_mul_I]
  norm_num

theorem meanF_sub_const {N : ℕ} [NeZero N] (x : Fin N → ℝ) (c : ℝ) :
    meanF (fun k => x k - c) = meanF x - c := by
  have hNR : (N : ℝ) ≠ 0 := Nat.cast_ne_zero.mpr (NeZero.ne N)
  simp only [meanF, Finset.sum_sub_distrib, Finset.sum_const, Finset.card_univ,
    Fintype.card_fin, nsmul_eq_mul]
  field_simp

theorem timeFreqMk_mean_zero {N : ℕ} [NeZero N] (dt : ℝ) :
    meanF (timeFreqMk N dt).t = 0 := by
  show meanF (fun k => linspaceF 0 (N * dt) N k - meanF (linspaceF 0 (N * dt) N)) = 0
  rw [meanF_sub_const]
  exact sub_self _

theorem timeFreqMk_spacing {N : ℕ} [NeZero N] (hN : 2 ≤ N) (dt : ℝ) :
    (timeFreqMk N dt).t 1 - (timeFreqMk N dt).t 0 = N * dt / ((N : ℝ) - 1) := by
  show (linspaceF 0 (N * dt) N 1 - meanF (linspaceF 0 (N * dt) N)) -
    (linspaceF 0 (N * dt) N 0 - meanF (linspaceF 0 (N * dt) N)) = _
  simp only [linspaceF, fin_val_one hN, fin_val_zero]
  push_cast
  ring

theorem tf2_spacing : tf2.t 1 - tf2.t 0 = 2 := by
  rw [tf2, timeFreqMk_spacing (by norm_num)]
  norm_num

theorem tf2_freq_step : tf2.freq_step = 1/4 := by
  show getFreqRangeFromTime tf2.t 1 - getFreqRangeFromTime tf2.t 0 = 1/4
  rw [freqRange_spacing (by norm_num), tf2_spacing]
  norm_num

theorem maxPower_aHalf : maxPower aHalf = 1/4 := by
  rw [maxPower]
  have h : (fun n => getPower (aHalf n)) = fun _ : Fin 4 => (1/4 : ℝ) := by
    funext n
    fin_cases n <;>
      norm_num [aHalf, aF, getPower_eq_normSq, Complex.normSq_apply]
  rw [h]
  simp

theorem aHalf_ne_aF : aHalf ≠ aF := by
  intro h
  have h0 := congrFun h 0
  rw [aHalf] at h0
  norm_num [aF] at h0

theorem sF_ne_sHalf : sF ≠ sHalf := by
  intro h
  have h0 := congrFun h 0
  rw [sHalf] at h0
  norm_num [sF] at h0

theorem ssfmRunFiber_sig_update {N : ℕ} [NeZero N] {fuel : ℕ} {fiber : FiberC} {cfg : StepCfg}
    {sig : InputSignalC N} {r : SSFMResultC N × InputSignalC N}
    (h : ssfmRunFiber fuel fiber cfg sig = some r) : ∃ p, r.2 = updateSignal sig p := by
  simp only [ssfmRunFiber] at h
  cases hz : getZsteps fiber sig cfg fuel with
  | none => rw [hz] at h; exact absurd h (by simp)
  | some zinfo =>
      rw [hz, Option.some_bind] at h
      cases hr : runSteps sig.timeFreq fiber zinfo.2 sig.amplitude [sig.amplitude] [sig.spectrum] with
      | none => rw [hr] at h; exact absurd h (by simp)
      | some rs =>
          rw [hr, Option.map_some'] at h
          exact ⟨rs.1, by rw [← Option.some_injective _ h]⟩

/-- C10 amended: running SSFM leaves every attribute of the caller's signal object
unchanged except amplitude and Pmax: spectrum, duration, Amax, offset, chirp, carrier
frequency and the grid keep their pre-run values, and after a nonempty link the Pmax
attribute equals the peak power of the stored amplitude (the final field of the last
segment). -/
theorem C10_mutation_frame {N : ℕ} [NeZero N] (fuel : ℕ) (cfg : StepCfg) :
    ∀ (fibers : List FiberC) (sig : InputSignalC N)
      (out : List (SSFMResultC N) × InputSignalC N),
      SSFM fuel fibers cfg sig = some out →
      out.2.spectrum = sig.spectrum ∧ out.2.duration = sig.duration ∧
        out.2.Amax = sig.Amax ∧ out.2.offset = sig.offset ∧ out.2.chirp = sig.chirp ∧
        out.2.carrier_freq_Hz = sig.carrier_freq_Hz ∧ out.2.timeFreq = sig.timeFreq ∧
        (fibers ≠ [] → out.2.Pmax = maxPower out.2.amplitude) := by
  intro fibers
  induction fibers with
  | nil =>
      intro sig out h
      simp only [SSFM] at h
      have := Option.some_injective _ h
      subst this
      exact ⟨rfl, rfl, rfl, rfl, rfl, rfl, rfl, fun hne => absurd rfl hne⟩
  | cons fb rest ih =>
      intro sig out h
      simp only [SSFM] at h
      cases hrf : ssfmRunFiber fuel fb cfg sig with
      | none => rw [hrf] at h; exact absurd h (by simp)
      | some r =>
          rw [hrf, Option.some_bind] at h
          cases hrest : SSFM fuel rest cfg r.2 with
          | none => rw [hrest] at h; exact absurd h (by simp)
          | some q =>
              rw [hrest, Option.map_some'] at h
              have hout : out = (r.1 :: q.1, q.2) := (Option.some_injective _ h).symm
              subst hout
              obtain ⟨p, hp⟩ := ssfmRunFiber_sig_update hrf
              have hframe := ih r.2 q hrest
              refine ⟨?_, ?_, ?_, ?_, ?_, ?_, ?_, ?_⟩
              · rw [hframe.1, hp, updateSignal_spectrum]
              · rw [hframe.2.1, hp, updateSignal_duration]
              · rw [hframe.2.2.1, hp]; rfl
              · rw [hframe.2.2.2.1, hp]; rfl
              · rw [hframe.2.2.2.2.1, hp]; rfl
              · rw [hframe.2.2.2.2.2.1, hp]; rfl
              · rw [hframe.2.2.2.2.2.2.1, hp, updateSignal_timeFreq]
              · intro _
                cases rest with
                | nil =>
                    simp only [SSFM] at hrest
                    have hq : q = ([], r.2) := (Option.some_injective _ hrest).symm
                    subst hq
                    rw [hp]
                    rfl
                | cons fb2 rest2 =>
                    exact hframe.2.2.2.2.2.2.2 (by simp)

theorem getZsteps_degenerate_fixedStr {N : ℕ} (fiber : FiberC) (sig : InputSignalC N)
    (app : String) (safety : ℝ) (fuel : ℕ)
    (hz : zstep_NL 0 fiber sig app safety = fiber.Length) (hL : 0 < fiber.Length) :
    getZsteps fiber sig { mode := "fixed", approach := Sum.inl app, safety := safety } fuel =
      some ([0, fiber.Length], [fiber.Length]) := by
  simp only [getZsteps]
  rw [if_pos (by decide)]
  rw [hz]
  rw [show arangeList fiber.Length fiber.Length = [0] by
    rw [arangeList, div_self (ne_of_gt hL)]
    rw [show ⌈(1 : ℝ)⌉₊ = 1 from Nat.ceil_one]
    norm_num [List.range_succ]]
  simp only [List.getLast?_cons, List.getLastD, List.getLast?_nil, Option.getD_none]
  rw [if_neg (ne_of_lt hL)]
  rw [show ([(0 : ℝ)] ++ [fiber.Length]) = [0, fiber.Length] from rfl]
  rw [show diffList [(0 : ℝ), fiber.Length] = [fiber.Length] by
    rw [show ([(0 : ℝ), fiber.Length]) = 0 :: [fiber.Length] from rfl, diffList_cons_cons]
    norm_num [diffList]]

theorem getVariableZsteps_degenerate {N : ℕ} (fiber : FiberC) (sig : InputSignalC N)
    (app : String) (safety : ℝ) (fuel : ℕ)
    (hz : ∀ z, zstep_NL z fiber sig app safety = fiber.Length) (hL : 0 < fiber.Length)
    (hfuel : 1 ≤ fuel) :
    getVariableZsteps fuel fiber sig app safety =
      some ([0, fiber.Length, fiber.Length], [fiber.Length, 0]) := by
  obtain ⟨f, rfl⟩ : ∃ f, fuel = f + 1 := ⟨fuel - 1, by omega⟩
  simp only [getVariableZsteps]
  rw [varLoop.eq_def]
  simp only [hz]
  rw [if_pos (by linarith)]
  rw [varLoop.eq_def]
  simp only [hz]
  rw [if_neg (by intro hcon; linarith)]
  simp only [Option.map_some']
  norm_num

theorem getZsteps_degenerate_var {N : ℕ} (fiber : FiberC) (sig : InputSignalC N)
    (app : String) (safety : ℝ) (fuel : ℕ)
    (hz : ∀ z, zstep_NL z fiber sig app safety = fiber.Length) (hL : 0 < fiber.Length)
    (hfuel : 1 ≤ fuel) :
    getZsteps fiber sig { mode := "variable", approach := Sum.inl app, safety := safety } fuel =
      some ([0, fiber.Length, fiber.Length], [fiber.Length, 0]) := by
  simp only [getZsteps]
  rw [if_neg (by decide)]
  exact getVariableZsteps_degenerate fiber sig app safety fuel hz hL hfuel

theorem getZsteps_degenerate_varInt {N : ℕ} (fiber : FiberC) (sig : InputSignalC N)
    (M : ℕ) (safety : ℝ) (fuel : ℕ)
    (hdeg : fiber.gamma = 0 ∨ fiber.beta2 = 0) (hL : 0 < fiber.Length)
    (hfuel : 1 ≤ fuel) :
    getZsteps fiber sig { mode := "variable", approach := Sum.inr M, safety := safety } fuel =
      some ([0, fiber.Length, fiber.Length], [fiber.Length, 0]) := by
  have hz : ∀ z, zstep_NL z fiber sig ("") safety = fiber.Length := by
    intro z
    rcases hdeg with h | h
    · exact zstep_gamma0 z fiber sig ("") safety h
    · exact zstep_beta0 z fiber sig ("") safety h
  simp only [getZsteps]
  rw [if_neg (by decide)]
  rw [if_pos hdeg]
  exact getVariableZsteps_degenerate fiber sig ("") safety fuel hz hL hfuel

/-- C4 amended: when gamma = 0 or beta2 = 0 the single-step fast path applies only where
zstep_NL is consulted. In fixed mode with a string approach the schedule is exactly
([0, L], [L]); in variable mode, with a string approach and likewise with an integer
approach (the fast path fires before the mode is inspected), the loop lands exactly on
L and a zero-size final step is appended, giving ([0, L, L], [L, 0]); in fixed mode
with an integer count M the uniform M-step schedule is produced regardless of gamma
and beta2. -/
theorem C4_degenerate_schedules {N : ℕ} (fiber : FiberC) (sig : InputSignalC N)
    (hdeg : fiber.gamma = 0 ∨ fiber.beta2 = 0) (hL : 0 < fiber.Length) :
    (∀ (app : String) (safety : ℝ) (fuel : ℕ),
      getZsteps fiber sig { mode := "fixed", approach := Sum.inl app, safety := safety } fuel =
        some ([0, fiber.Length], [fiber.Length])) ∧
    (∀ (app : String) (safety : ℝ) (fuel : ℕ), 1 ≤ fuel →
      getZsteps fiber sig { mode := "variable", approach := Sum.inl app, safety := safety } fuel =
        some ([0, fiber.Length, fiber.Length], [fiber.Length, 0])) ∧
    (∀ (M : ℕ) (safety : ℝ) (fuel : ℕ), 1 ≤ fuel →
      getZsteps fiber sig { mode := "variable", approach := Sum.inr M, safety := safety } fuel =
        some ([0, fiber.Length, fiber.Length], [fiber.Length, 0])) ∧
    (∀ (M : ℕ) (safety : ℝ) (fuel : ℕ), 1 ≤ M →
      getZsteps fiber sig { mode := "fixed", approach := Sum.inr M, safety := safety } fuel =
        some (linspaceList 0 fiber.Length (M + 1), List.replicate M (fiber.Length / M))) := by
  have hz : ∀ (app : String) (safety : ℝ) (z : ℝ),
      zstep_NL z fiber sig app safety = fiber.Length := by
    intro app safety z
    rcases hdeg with h | h
    · exact zstep_gamma0 z fiber sig app safety h
    · exact zstep_beta0 z fiber sig app safety h
  refine ⟨?_, ?_, ?_, ?_⟩
  · intro app safety fuel
    exact getZsteps_degenerate_fixedStr fiber sig app safety fuel (hz app safety 0) hL
  · intro app safety fuel hfuel
    exact getZsteps_degenerate_var fiber sig app safety fuel (hz app safety) hL hfuel
  · intro M safety fuel hfuel
    exact getZsteps_degenerate_varInt fiber sig M safety fuel hdeg hL hfuel
  · intro M safety fuel hM
    simp only [getZsteps]
    rw [if_pos (by decide)]
    rw [linspace_getD1 fiber.Length hM, linspace_getD0, sub_zero]

/-- C1: the claim says one SSFM step multiplies each spectral sample at frequency f by
exp(D(f)·Δz) with D(f) = i·β₂/2·(2πf)² − α_Np/2. The code instead precomputes
disp_and_loss = exp(D(f)) and applies disp_and_loss ** Δz, the principal-branch complex
power. On the grid tfC1 (whose sample 3 sits at f = 1 Hz) with β₂ = 2/π², α = 0 and
Δz = 1/2, the phase of D is 4 radians, beyond π, so the branch cut makes the applied
factor equal to minus exp(D·Δz): the code contradicts the claimed (and physically
intended) linear evolution. -/
theorem C1_linear_factor_branch_cut :
    dispAndLoss fiberC1 tfC1 3 ^ ((1/2 : ℝ) : ℂ) =
      -specLinearFactor fiberC1 (tfC1.f 3) (1/2) ∧
    dispAndLoss fiberC1 tfC1 3 ^ ((1/2 : ℝ) : ℂ) ≠
      specLinearFactor fiberC1 (tfC1.f 3) (1/2) := by
  have hv : dispAndLoss fiberC1 tfC1 3 ^ ((1/2 : ℝ) : ℂ) = -Complex.exp (2 * I) := by
    rw [dispC1]
    exact cpow_half_exp4I
  constructor
  · rw [hv, specC1]
  · rw [hv, specC1]
    intro h
    exact Complex.exp_ne_zero (2 * I) (by linear_combination (-(1 : ℂ)/2) * h)

/-- C2 counterexample: for the dispersion-only fiber (gamma = 0, length 1) in variable
mode, getZsteps returns the schedule ([0, 1, 1], [1, 0]) whose final step size is 0,
refuting the claim that every step size is strictly positive in every mode. -/
theorem C2_cx_zero_final_step :
    getZsteps fiberV sigBase cfgVar 2 = some ([0, 1, 1], [1, 0]) ∧
    ¬ (∀ d ∈ ([1, 0] : List ℝ), 0 < d) := by
  refine ⟨varEval_fiberV, ?_⟩
  intro h
  exact lt_irrefl 0 (h 0 (by simp))

/-- C2 witness: the invariants instantiated on the concrete uniform two-step schedule
of the dispersion-only fiber. -/
theorem C2_schedule_invariants_witness :
    0 < fiberV.Length ∧
    getZsteps fiberV sigBase cfgF2 9 = some ([0, 1/2, 1], [1/2, 1/2]) ∧
    (([(0 : ℝ), 1/2, 1], ([1/2, 1/2] : List ℝ)).1.head? = some 0 ∧
      ([(0 : ℝ), 1/2, 1], ([1/2, 1/2] : List ℝ)).1.getLast? = some fiberV.Length ∧
      ([(0 : ℝ), 1/2, 1], ([1/2, 1/2] : List ℝ)).2.sum = fiberV.Length ∧
      (∀ d ∈ ([(0 : ℝ), 1/2, 1], ([1/2, 1/2] : List ℝ)).2.dropLast, 0 < d) ∧
      (∃ dlast, ([(0 : ℝ), 1/2, 1], ([1/2, 1/2] : List ℝ)).2.getLast? = some dlast ∧
        0 ≤ dlast) ∧
      (pyLower cfgF2.mode = "fixed" →
        ∀ d ∈ ([(0 : ℝ), 1/2, 1], ([1/2, 1/2] : List ℝ)).2, 0 < d)) := by
  have hL : 0 < fiberV.Length := by norm_num [fiberV, mkFiber]
  refine ⟨hL, intEval_fiberV, ?_⟩
  exact C2_schedule_invariants hL
    (by intro app happ; simp [cfgF2] at happ)
    (by intro M hM; simp [cfgF2] at hM; omega)
    intEval_fiberV

/-- C3: the claim says the time axis has spacing exactly dt. The constructor uses
linspace(0, N·dt, N), whose spacing is N·dt/(N−1): on the grid with N = 2, dt = 1 the
spacing is 2, not 1, and the frequency spacing is 1/4, not 1/(N·dt) = 1/2. The
recentring to exactly zero mean (the true part of the claim) does hold. This
contradicts the constructor docstring calling dt the duration of each time step. -/
theorem C3_time_axis_spacing_bug :
    tf2.t 1 - tf2.t 0 = 2 ∧ (2 : ℝ) ≠ 1 ∧ meanF tf2.t = 0 ∧
    tf2.freq_step = 1/4 ∧ (1/4 : ℝ) ≠ 1 / (2 * 1) := by
  refine ⟨tf2_spacing, by norm_num, ?_, tf2_freq_step, by norm_num⟩
  exact timeFreqMk_mean_zero 1

/-- C5 counterexample: two runs whose launched signals differ only in the duration
attribute. After an identity first fiber both boundary fields are identical, yet the
schedules computed for the second fiber differ, so the duration used for segment i+1
is not recomputed from the boundary field: it is reused from the original signal. -/
theorem C5_cx_duration_reused :
    (ssfmRunFiber 9 fiberI cfgFC sigBase).map (fun r => r.2.amplitude) =
      (ssfmRunFiber 9 fiberI cfgFC sigTau2).map (fun r => r.2.amplitude) ∧
    (ssfmRunFiber 9 fiberI cfgFC sigBase).bind (fun r => getZsteps fiberK r.2 cfgFC 9) ≠
      (ssfmRunFiber 9 fiberI cfgFC sigTau2).bind (fun r => getZsteps fiberK r.2 cfgFC 9) := by
  constructor
  · rw [runFiberI_base, runFiberI_tau2]
    simp [updateSignal_amplitude]
  · rw [runFiberI_base, runFiberI_tau2]
    simp only [Option.some_bind, schedK_tau1, schedK_tau2]
    intro h
    have h1 := congrArg (fun o => (Option.map Prod.fst o)) h
    simp only [Option.map_some'] at h1
    have h2 : ([(0 : ℝ), 1] : List ℝ) = [0, 1/4, 1/2, 3/4, 1] := by
      exact Option.some_injective _ h1
    have := congrArg List.length h2
    simp at this

/-- C5 amended: at each fiber boundary the driver sets Pmax to the peak power of the
output field, but the duration attribute is carried over unchanged from the input
signal; only the peak power is recomputed from the field. -/
theorem C5_boundary_update {N : ℕ} [NeZero N] (fuel : ℕ) (fiber : FiberC) (cfg : StepCfg)
    (sig : InputSignalC N) (r : SSFMResultC N × InputSignalC N)
    (h : ssfmRunFiber fuel fiber cfg sig = some r) :
    r.2.Pmax = maxPower r.2.amplitude ∧ r.2.duration = sig.duration := by
  obtain ⟨p, hp⟩ := ssfmRunFiber_sig_update h
  rw [hp]
  exact ⟨rfl, rfl⟩

/-- C5 witness: the boundary update after the attenuation fiber. -/
theorem C5_boundary_update_witness :
    ssfmRunFiber 9 fiberA cfgFC sigBase =
      some ({ zinfo := ([0, 1], [1]), pulseRows := [aF, aHalf],
              spectrumRows := [sF, sHalf] }, updateSignal sigBase aHalf) ∧
    ((updateSignal sigBase aHalf).Pmax = maxPower (updateSignal sigBase aHalf).amplitude ∧
      (updateSignal sigBase aHalf).duration = sigBase.duration) :=
  ⟨runFiberA_base, C5_boundary_update 9 fiberA cfgFC sigBase _ runFiberA_base⟩

/-- C6: in a two-fiber run through the attenuation fiber, row 0 of the second result
record holds the pulse aHalf actually launched into fiber 2, but its spectrum row 0 is
the pre-run spectrum sF of the original signal, not the transform sHalf of aHalf: the
driver never updates the spectrum attribute at a fiber boundary, so row 0 of later
segments is stale, contradicting the claim (and the result-class docstring). -/
theorem C6_stale_spectrum_row0 :
    (SSFM 9 [fiberA, fiberA] cfgFC sigBase).map
        (fun out => out.1.map fun res => (res.pulseRows.head?, res.spectrumRows.head?)) =
      some [(some aF, some sF), (some aHalf, some sF)] ∧
    getSpectrumFromPulse tf4.t aHalf = some sHalf ∧ sF ≠ sHalf := by
  refine ⟨?_, fwd_aHalf, sF_ne_sHalf⟩
  rw [SSFM_two_fiberA]
  rfl

/-- C7 witness: the round trip on the concrete field aF over the 4-point grid. -/
theorem C7_roundtrip_witness :
    (2 ≤ 4) ∧ (tf4.t 1 - tf4.t 0 ≠ 0) ∧
    getSpectrumFromPulse tf4.t aF = some sF ∧
    getPulseFromSpectrum (getFreqRangeFromTime tf4.t) sF = some aF ∧ aF = aF :=
  have hdt : tf4.t 1 - tf4.t 0 ≠ 0 := by rw [tf4_dt]; norm_num
  have hinv : getPulseFromSpectrum (getFreqRangeFromTime tf4.t) sF = some aF := inv_sF
  ⟨by norm_num, hdt, fwd_aF, hinv,
    C7_roundtrip (by norm_num) tf4.t hdt aF sF aF fwd_aF hinv⟩

/-- C8 counterexample: with gamma and beta2 nonzero and the unknown step mode string
"banana", zstep_NL returns the fallback step size 1.0 rather than signalling any
error, refuting the claim that an unknown step mode produces an InvalidParameter
error. -/
theorem C8_cx_unknown_mode :
    zstep_NL 0 fiberC8 sigBase ("banana") 1 = 1 :=
  zstep_unknown_mode 0 fiberC8 sigBase ("banana") 1
    (by norm_num [fiberC8, mkFiber]) (by norm_num [fiberC8, mkFiber])
    (by decide) (by decide)

/-- C8 amended: for any fiber with gamma and beta2 nonzero and any step mode string
that lowercases to neither cautious nor approx, zstep_NL silently returns the
fallback step size 1.0 metre. -/
theorem C8_unknown_mode_fallback {N : ℕ} (z : ℝ) (fiber : FiberC) (sig : InputSignalC N)
    (mode : String) (s : ℝ) (hg : fiber.gamma ≠ 0) (hb : fiber.beta2 ≠ 0)
    (h1 : pyLower mode ≠ "cautious") (h2 : pyLower mode ≠ "approx") :
    zstep_NL z fiber sig mode s = 1 :=
  zstep_unknown_mode z fiber sig mode s hg hb h1 h2

/-- C8 witness: the fallback at the concrete unknown mode string. -/
theorem C8_unknown_mode_fallback_witness :
    fiberC8.gamma ≠ 0 ∧ fiberC8.beta2 ≠ 0 ∧
    pyLower ("bogus") ≠ "cautious" ∧ pyLower ("bogus") ≠ "approx" ∧
    zstep_NL 7 fiberC8 sigBase ("bogus") 1 = 1 :=
  ⟨by norm_num [fiberC8, mkFiber], by norm_num [fiberC8, mkFiber], by decide, by decide,
    C8_unknown_mode_fallback 7 fiberC8 sigBase ("bogus") 1
      (by norm_num [fiberC8, mkFiber]) (by norm_num [fiberC8, mkFiber])
      (by decide) (by decide)⟩

/-- C9 counterexample: the variable-step loop for the cautious fiber of length 7/2
runs to completion and returns a 4-step schedule; no step-count guard exists, so even
a configured maximum of, say, 2 steps would not make it fail: the claimed
ScheduleOverflow error does not exist in the code. -/
theorem C9_cx_no_overflow :
    getZsteps fiberC9 sigBase cfgVar 5 = some ([0, 1, 2, 3, 7/2], [1, 1, 1, 1/2]) ∧
    ([(1 : ℝ), 1, 1, 1/2] : List ℝ).length = 4 ∧ 2 < 4 :=
  ⟨varEval_fiberC9, rfl, by norm_num⟩

/-- C9 amended: the variable-step loop has no overflow guard: whenever the step sizes
are bounded below by a positive constant, the loop terminates and getVariableZsteps
returns a schedule, however many steps that takes. -/
theorem C9_variable_loop_always_completes {N : ℕ} (fiber : FiberC) (sig : InputSignalC N)
    (mode : String) (safety : ℝ) (c : ℝ) (hc : 0 < c)
    (hstep : ∀ z', 0 ≤ z' → c ≤ zstep_NL z' fiber sig mode safety) :
    ∃ fuel, (getVariableZsteps fuel fiber sig mode safety).isSome := by
  obtain ⟨n, hn⟩ := exists_nat_gt (fiber.Length / c)
  refine ⟨n, ?_⟩
  rw [getVariableZsteps]
  rw [Option.isSome_map']
  refine varLoop_terminates hc hstep n 0 [0] [] le_rfl ?_
  rw [sub_zero]
  calc fiber.Length = fiber.Length / c * c := by field_simp
    _ < n * c := by
        exact mul_lt_mul_of_pos_right hn hc

/-- C9 witness: termination of the cautious variable loop on the concrete fiber. -/
theorem C9_variable_loop_always_completes_witness :
    (0 : ℝ) < 1 ∧
    (∀ z', 0 ≤ z' → (1 : ℝ) ≤ zstep_NL z' fiberC9 sigBase ("cautious") 1) ∧
    ∃ fuel, (getVariableZsteps fuel fiberC9 sigBase ("cautious") 1).isSome :=
  have hstep : ∀ z', 0 ≤ z' → (1 : ℝ) ≤ zstep_NL z' fiberC9 sigBase ("cautious") 1 :=
    fun z' _ => le_of_eq (zstep_fiberC9 z' sigBase rfl rfl).symm
  ⟨by norm_num, hstep,
    C9_variable_loop_always_completes fiberC9 sigBase ("cautious") 1 1 (by norm_num) hstep⟩

/-- C10 counterexample: after the single attenuation-fiber run, the signal object's
amplitude no longer holds the launched field aF, but its spectrum attribute is
untouched and the module's own inverse transform recovers aF from it exactly, so the
original launched field is still recoverable from the input_signal object,
contradicting the final clause of the claim. -/
theorem C10_cx_field_recoverable :
    (SSFM 9 [fiberA] cfgFC sigBase).map (fun out => out.2) =
      some (updateSignal sigBase aHalf) ∧
    (updateSignal sigBase aHalf).amplitude ≠ aF ∧
    (updateSignal sigBase aHalf).spectrum = sigBase.spectrum ∧
    getPulseFromSpectrum (updateSignal sigBase aHalf).timeFreq.f
      (updateSignal sigBase aHalf).spectrum = some aF := by
  refine ⟨?_, ?_, rfl, ?_⟩
  · rw [SSFM_single_fiberA]
    rfl
  · rw [updateSignal_amplitude]
    exact aHalf_ne_aF
  · exact inv_sF

/-- C10 witness: the frame conditions instantiated on the single attenuation-fiber
run. -/
theorem C10_mutation_frame_witness :
    SSFM 9 [fiberA] cfgFC sigBase =
      some ([{ zinfo := ([0, 1], [1]), pulseRows := [aF, aHalf],
               spectrumRows := [sF, sHalf] }], updateSignal sigBase aHalf) ∧
    ((updateSignal sigBase aHalf).spectrum = sigBase.spectrum ∧
      (updateSignal sigBase aHalf).duration = sigBase.duration ∧
      (updateSignal sigBase aHalf).Amax = sigBase.Amax ∧
      (updateSignal sigBase aHalf).offset = sigBase.offset ∧
      (updateSignal sigBase aHalf).chirp = sigBase.chirp ∧
      (updateSignal sigBase aHalf).carrier_freq_Hz = sigBase.carrier_freq_Hz ∧
      (updateSignal sigBase aHalf).timeFreq = sigBase.timeFreq ∧
      ([fiberA] ≠ ([] : List FiberC) →
        (updateSignal sigBase aHalf).Pmax = maxPower (updateSignal sigBase aHalf).amplitude)) :=
  ⟨SSFM_single_fiberA,
    C10_mutation_frame 9 cfgFC [fiberA] sigBase _ SSFM_single_fiberA⟩

/-- C4 counterexample: in fixed mode with the integer step count 2 on the
dispersion-only fiber (gamma = 0, length 1), getZsteps produces the uniform two-step
schedule, not the claimed single step of size L: the fast path is only consulted when
zstep_NL is called, which the integer branch never does. -/
theorem C4_cx_integer_mode :
    getZsteps fiberV sigBase cfgF2 9 = some ([0, 1/2, 1], [1/2, 1/2]) ∧
    (([0, 1/2, 1], [1/2, 1/2]) : List ℝ × List ℝ) ≠ (([0, 1], [1]) : List ℝ × List ℝ) := by
  refine ⟨intEval_fiberV, ?_⟩
  intro h
  have h1 := congrArg Prod.fst h
  have h2 := congrArg List.length h1
  simp at h2

/-- C4 witness: the fast path on the dispersion-only fiber, in fixed mode with a
string approach and in variable mode with an integer approach. -/
theorem C4_degenerate_schedules_witness :
    (fiberV.gamma = 0 ∨ fiberV.beta2 = 0) ∧ 0 < fiberV.Length ∧
    getZsteps fiberV sigBase
        { mode := "fixed", approach := Sum.inl ("cautious"), safety := 1 } 3 =
      some ([0, fiberV.Length], [fiberV.Length]) ∧
    getZsteps fiberV sigBase
        { mode := "variable", approach := Sum.inr 2, safety := 1 } 3 =
      some ([0, fiberV.Length, fiberV.Length], [fiberV.Length, 0]) :=
  have hdeg : fiberV.gamma = 0 ∨ fiberV.beta2 = 0 := Or.inl (by norm_num [fiberV, mkFiber])
  have hL : 0 < fiberV.Length := by norm_num [fiberV, mkFiber]
  ⟨hdeg, hL, (C4_degenerate_schedules fiberV sigBase hdeg hL).1 ("cautious") 1 3,
    (C4_degenerate_schedules fiberV sigBase hdeg hL).2.2.1 2 1 3 (by norm_num)⟩

end

end NLSE
